import Mathlib

/-!
# rwtxt markdown import pipeline (`cmd/rwtxt/main.go`)

A shallow embedding of the import pipeline of `cmd/rwtxt/main.go`:
`findLinks`, `replaceFrontmatter`, `processFrontmatter`, `processLink`,
`updateMarkdown`, `processMarkdown` and `importMarkdown`.

Modelling conventions.

* A Go `string` is a `List Char` (`Str`): the sequence of its runes.  All inputs are
  taken to be valid UTF-8, on which the byte-wise `strings` functions and the
  rune-wise `regexp` functions agree with their rune-list counterparts.
* `regexp` is embedded as a backtracking matcher in continuation-passing style.  Go
  documents its (non-POSIX) matching as leftmost-first: the match that starts earliest
  and, among those, the one a backtracking search finds first.  Only the constructs
  that the two patterns of the program use are present.
* A Go function that can return an error or panic returns a `Res`.
* The collaborators (`db.FileSystem`, the `os` file system, `toml.Unmarshal`,
  `utils.UUID`, `time.Now`, `sha256`, `gzip`, `rwtxt.IntroText`) are fields of an
  environment `Env σ` over an arbitrary world state `σ`; every call that can change
  the world threads the state.  The calls made to the collaborators are recorded in
  a list of `Event`s.
-/

namespace Rwtxt

/-- Go strings, as rune sequences. -/
abbrev Str := List Char

/-! ## `strings` -/

/-- The Go function `strings.HasPrefix(s, p)`. -/
def hasPrefix : Str → Str → Bool
  | _, [] => true
  | [], _ :: _ => false
  | c :: s, d :: p => c == d && hasPrefix s p

/-- The Go function `strings.Contains(s, sub)`. -/
def contains : Str → Str → Bool
  | [], sub => hasPrefix [] sub
  | c :: s, sub => hasPrefix (c :: s) sub || contains s sub

/-- The scan of `strings.Replace(s, old, new, -1)` for a non-empty `old`: the
occurrences of `old` are found left to right without overlap.  The counter is the number
of characters of the occurrence just replaced that are still to be skipped. -/
def replaceScan (old new : Str) : Str → Nat → Str
  | [], _ => []
  | _ :: s, skip + 1 => replaceScan old new s skip
  | c :: s, 0 =>
    if hasPrefix (c :: s) old then new ++ replaceScan old new s (old.length - 1)
    else c :: replaceScan old new s 0

/-- The Go function `strings.Replace(s, old, new, -1)`.  With an empty `old`, Go inserts `new`
before every rune and at the end. -/
def stringsReplaceAll (s old new : Str) : Str :=
  if old = [] then new ++ s.flatMap (fun c => c :: new)
  else replaceScan old new s 0

/-- The Go function `strings.Join(elems, sep)`. -/
def stringsJoin : List Str → Str → Str
  | [], _ => []
  | [a], _ => a
  | a :: b :: rest, sep => a ++ sep ++ stringsJoin (b :: rest) sep

/-- The Go predicate `unicode.IsSpace`. -/
def isSpace (c : Char) : Bool :=
  let n := c.toNat
  (9 ≤ n && n ≤ 13) || n == 32 || n == 0x85 || n == 0xA0 || n == 0x1680 ||
  (0x2000 ≤ n && n ≤ 0x200a) || n == 0x2028 || n == 0x2029 || n == 0x202f ||
  n == 0x205f || n == 0x3000

/-- The Go function `strings.TrimSpace(s)`. -/
def TrimSpace (s : Str) : Str :=
  ((s.dropWhile isSpace).reverse.dropWhile isSpace).reverse

/-! ## `regexp` -/

/-- Regular expressions, restricted to the constructs of the two patterns of the program:
literals, a starred character class (greedy `x*` or lazy `x*?`), concatenation,
alternation and the capture group. -/
inductive Regex where
  | lit (cs : Str)
  | star (p : Char → Bool) (greedy : Bool)
  | cat (a b : Regex)
  | alt (a b : Regex)
  | group (a : Regex)

/-- First success of two alternatives of a backtracking search. -/
def orElse {β : Type} : Option β → Option β → Option β
  | some b, _ => some b
  | none, y => y

/-- Remove a literal from the front of the input. -/
def dropLit : Str → Str → Option Str
  | [], s => some s
  | _ :: _, [] => none
  | d :: cs, c :: s => if c = d then dropLit cs s else none

/-- Backtracking over a starred character class.  The greedy star first consumes one more
character and falls back to stopping; the lazy star first stops and falls back to consuming
one more character. -/
def starK {β : Type} (p : Char → Bool) (greedy : Bool) (k : Str → Option β) : Str → Option β
  | [] => k []
  | c :: s =>
    if p c then
      if greedy then orElse (starK p greedy k s) (k (c :: s))
      else orElse (k (c :: s)) (starK p greedy k s)
    else k (c :: s)

/-- Backtracking matcher.  `run r s g k` matches `r` at the front of `s` and passes the rest
of the input and the text of the capture group to the continuation `k`. -/
def Regex.run {β : Type} : Regex → Str → Option Str → (Str → Option Str → Option β) → Option β
  | .lit cs, s, g, k =>
    match dropLit cs s with
    | some rest => k rest g
    | none => none
  | .star p greedy, s, g, k => starK p greedy (fun rest => k rest g) s
  | .cat a b, s, g, k => a.run s g (fun rest g1 => b.run rest g1 k)
  | .alt a b, s, g, k => orElse (a.run s g k) (b.run s g k)
  | .group a, s, g, k => a.run s g (fun rest _ => k rest (some (s.take (s.length - rest.length))))

/-- Denotation of a regular expression: `r.Matches w g g1` holds when `r` can consume exactly
the text `w`, turning the capture `g` into `g1`. -/
def Regex.Matches : Regex → Str → Option Str → Option Str → Prop
  | .lit cs, w, g, g1 => w = cs ∧ g1 = g
  | .star p _, w, g, g1 => (∀ c ∈ w, p c = true) ∧ g1 = g
  | .cat a b, w, g, g1 => ∃ u v g2, w = u ++ v ∧ a.Matches u g g2 ∧ b.Matches v g2 g1
  | .alt a b, w, g, g1 => a.Matches w g g1 ∨ b.Matches w g g1
  | .group a, w, g, g1 => (∃ g2, a.Matches w g g2) ∧ g1 = some w

/-- A match anchored at the front of `s`: the input left after the match and the text of the
capture group. -/
def matchAt (r : Regex) (s : Str) : Option (Str × Option Str) :=
  r.run s none (fun rest g => some (rest, g))

/-- The text of the capture group of a match (empty when the group did not take part). -/
def groupText (m : Str × Option Str) : Str := m.2.getD []

/-- The Go method `FindStringSubmatch`, reduced to the capture group: the leftmost match. -/
def findSubmatch (r : Regex) : Str → Option Str
  | [] => (matchAt r []).map groupText
  | c :: s =>
    match matchAt r (c :: s) with
    | some m => some (groupText m)
    | none => findSubmatch r s

/-- The Go method `FindAllStringSubmatch(s, -1)`, reduced to the capture group of each match:
successive non-overlapping matches, left to right.  The counter is the number of characters
of the last match still to be skipped.  Both patterns of the program start with a
literal, so no match is empty. -/
def findAllSubmatch (r : Regex) : Str → Nat → List Str
  | [], _ => []
  | _ :: s, skip + 1 => findAllSubmatch r s skip
  | c :: s, 0 =>
    match matchAt r (c :: s) with
    | some m => groupText m :: findAllSubmatch r s ((c :: s).length - m.1.length - 1)
    | none => findAllSubmatch r s 0

/-- The Go method `ReplaceAllString(s, repl)` for a replacement without `$`: every match,
left to right and without overlap, is replaced by `repl`. -/
def replaceAllString (r : Regex) (repl : Str) : Str → Nat → Str
  | [], _ => []
  | _ :: s, skip + 1 => replaceAllString r repl s skip
  | c :: s, 0 =>
    match matchAt r (c :: s) with
    | some m => repl ++ replaceAllString r repl s ((c :: s).length - m.1.length - 1)
    | none => c :: replaceAllString r repl s 0

/-- The class of `.` without the `s` flag: any character but a newline. -/
def dot (c : Char) : Bool := c != '\n'

/-- The class of `.` under the `s` flag: any character. -/
def dotAll (_ : Char) : Bool := true

/-- The pattern of `findLinks`, `!\[.*?\]\((.*?jpg|jpeg).*?\)`.  The alternation is the whole
content of the group: its branches are `.*?jpg` and `jpeg`. -/
def linkRe : Regex :=
  .cat (.lit "![".toList) <|
  .cat (.star dot false) <|
  .cat (.lit "](".toList) <|
  .cat (.group (.alt (.cat (.star dot false) (.lit "jpg".toList)) (.lit "jpeg".toList))) <|
  .cat (.star dot false) (.lit ")".toList)

/-- The pattern of `replaceFrontmatter` and `processFrontmatter`, `(?s)\+\+\+(.*)\+\+\+`. -/
def frontmatterRe : Regex :=
  .cat (.lit "+++".toList) (.cat (.group (.star dotAll true)) (.lit "+++".toList))

/-! ## The program -/

/-- The Go function `findLinks`. -/
def findLinks (content : Str) : List Str :=
  (findAllSubmatch linkRe content 0).filter (fun m => !contains m "http".toList)

/-- Go `error` values. -/
structure Error where
  msg : String
  deriving DecidableEq, Repr

/-- Outcome of a Go function with an `error` result: a value, an error, or a run-time
panic. -/
inductive Res (α : Type) where
  | ok (a : α)
  | err (e : Error)
  | panic
  deriving DecidableEq, Repr

/-- The calendar date of a `time.Time`, in the location of the value. -/
structure Date where
  year : Nat
  month : Nat
  day : Nat
  deriving DecidableEq, Repr

/-- The decimal digits of `n`, zero-padded on the left to `width` (`appendInt` of package
`time`). -/
def appendInt (n width : Nat) : Str :=
  let ds := Nat.toDigits 10 n
  List.replicate (width - ds.length) '0' ++ ds

/-- The Go call `t.Format("2006-01-02")`. -/
def formatDate (d : Date) : Str :=
  appendInt d.year 4 ++ '-' :: appendInt d.month 2 ++ '-' :: appendInt d.day 2

/-- The Go struct `Frontmatter`. -/
structure Frontmatter where
  Title : Str
  Description : Str
  Date : Date
  Tags : List Str
  deriving DecidableEq, Repr

/-- The strip step of `replaceFrontmatter`: `r.ReplaceAllString(content, "")`. -/
def stripFrontmatter (content : Str) : Str :=
  replaceAllString frontmatterRe [] content 0

/-- The Go function `replaceFrontmatter`. -/
def replaceFrontmatter (content : Str) (fm : Frontmatter) : Str :=
  let content := stripFrontmatter content
  let result : Str := []
  let result :=
    if fm.Title ≠ [] then
      let title := "# ".toList ++ fm.Title
      let result := result ++ title
      result ++ "\n\n".toList
    else result
  let result :=
    if fm.Description ≠ [] then
      let description := "*".toList ++ fm.Description ++ "*".toList
      let result := result ++ description
      result ++ "\n\n".toList
    else result
  let result := result ++ content
  let result := result ++ "\n\n".toList
  if fm.Tags.length > 0 then
    let tags := "*".toList ++ stringsJoin fm.Tags ",".toList ++ "*".toList
    let result := result ++ tags
    result ++ "\n\n".toList
  else result

/-- Byte strings. -/
abbrev Bytes := List Nat

/-- The Go struct `db.File`, with the fields that `importMarkdown` sets. -/
structure File where
  ID : Str
  Slug : Str
  Data : Str
  Created : Nat
  Domain : Str
  deriving DecidableEq, Repr

/-- The collaborators of the pipeline, over a world state `σ`. -/
structure Env (σ : Type) where
  /-- The constant `rwtxt.IntroText`. -/
  introText : Str
  /-- The call `toml.Unmarshal([]byte(found), result)` on a zero `Frontmatter`. -/
  unmarshal : Str → Except Error Frontmatter
  /-- The call `filepath.Join(basePath, path)`. -/
  joinPath : Str → Str → Str
  /-- The call `os.Open(fullPath)`. -/
  osOpen : Str → σ → Option Error × σ
  /-- The call `f.Close()`. -/
  fileClose : Str → σ → Option Error × σ
  /-- The call `ioutil.ReadFile(fullPath)`. -/
  readFile : Str → σ → Except Error Bytes × σ
  /-- The digest `h.Sum(nil)` of a SHA-256 hash that was fed the bytes. -/
  sha256 : Bytes → Bytes
  /-- The buffer after `io.Copy(gw, ...)` and `gw.Flush()`. -/
  gzip : Bytes → Except Error Bytes
  /-- The method `fs.SaveBlob(id, name, data)`. -/
  SaveBlob : Str → Str → Bytes → σ → Option Error × σ
  /-- The method `fs.Save(file)`. -/
  Save : File → σ → Option Error × σ
  /-- The method `fs.SetDomain(domain, password)`. -/
  SetDomain : Str → Str → σ → Option Error × σ
  /-- The call `utils.UUID()`. -/
  UUID : σ → Str × σ
  /-- The call `time.Now()`. -/
  now : σ → Nat × σ

/-- The Go function `processFrontmatter`.  `FindStringSubmatch` returns `nil` when the
pattern does not match, and indexing `nil` with `[1]` panics. -/
def processFrontmatter {σ : Type} (env : Env σ) (content : Str) : Res Frontmatter :=
  match findSubmatch frontmatterRe content with
  | none => .panic
  | some found =>
    match env.unmarshal found with
    | .error e => .err e
    | .ok result => .ok result

/-- One lowercase hexadecimal digit. -/
def hexDigit (n : Nat) : Char :=
  "0123456789abcdef".toList.getD (n % 16) '0'

/-- The verb `%x` applied to a byte slice. -/
def hexEncode (b : Bytes) : Str :=
  b.flatMap (fun x => [hexDigit (x / 16), hexDigit x])

/-- The Go function `processLink`. -/
def processLink {σ : Type} (env : Env σ) (path : Str) (s : σ) : Except Error Str × σ :=
  let basePath := "/home/nii236/git/travel-blog/static/".toList
  let fullPath := env.joinPath basePath path
  match env.osOpen fullPath s with
  | (some e, s1) => (.error e, s1)
  | (none, s1) =>
    let fname := fullPath
    match env.fileClose fullPath s1 with
    | (some e, s2) => (.error e, s2)
    | (none, s2) =>
      match env.readFile fullPath s2 with
      | (.error e, s3) => (.error e, s3)
      | (.ok b, s3) =>
        let id := "sha256-".toList ++ hexEncode (env.sha256 b)
        match env.gzip b with
        | .error e => (.error e, s3)
        | .ok fileData =>
          match env.SaveBlob id fname fileData s3 with
          | (some e, s4) => (.error e, s4)
          | (none, s4) => (.ok ("/uploads/".toList ++ id), s4)

/-- The Go function `updateMarkdown`. -/
def updateMarkdown (content oldLink newLink : Str) : Str :=
  stringsReplaceAll content oldLink newLink

/-- Calls that the pipeline makes, with their outcomes, in order. -/
inductive Event where
  | ingest (oldLink : Str) (res : Except Error Str)
  | save (file : File) (res : Option Error)
  | setDomain (domain password : Str) (res : Option Error)

/-- State of the loop over the links in `processMarkdown`. -/
structure LinkLoop (σ : Type) where
  content : Str
  state : σ
  trace : List Event

/-- The loop over the links in `processMarkdown`: a link whose ingestion fails is skipped,
a link whose ingestion succeeds is rewritten in the content before the next link. -/
def linkLoop {σ : Type} (env : Env σ) : List Str → Str → σ → LinkLoop σ
  | [], content, s => ⟨content, s, []⟩
  | oldLink :: links, content, s =>
    match processLink env oldLink s with
    | (.error e, s1) =>
      let r := linkLoop env links content s1
      ⟨r.content, r.state, Event.ingest oldLink (.error e) :: r.trace⟩
    | (.ok newLink, s1) =>
      let r := linkLoop env links (updateMarkdown content oldLink newLink) s1
      ⟨r.content, r.state, Event.ingest oldLink (.ok newLink) :: r.trace⟩

/-- A run of a function: its outcome, the world after it, and the calls it made. -/
structure Run (σ α : Type) where
  result : Res α
  state : σ
  trace : List Event

/-- The Go function `processMarkdown`.  When `processFrontmatter` fails the error is logged
and `fm` is `nil`, so `fm.Title` panics. -/
def processMarkdown {σ : Type} (env : Env σ) (content : Str) (s : σ) : Run σ Str :=
  match processFrontmatter env content with
  | .panic => ⟨.panic, s, []⟩
  | .err _ => ⟨.panic, s, []⟩
  | .ok fm =>
    let r := linkLoop env (findLinks content) content s
    ⟨.ok (replaceFrontmatter r.content fm), r.state, r.trace⟩

/-- The first lines of `importMarkdown`: the content is trimmed, and the placeholder text
`rwtxt.IntroText` is turned into the empty content. -/
def importData {σ : Type} (env : Env σ) (content : Str) : Str :=
  let data := TrimSpace content
  if data = env.introText then [] else data

/-- The Go function `importMarkdown`. -/
def importMarkdown {σ : Type} (env : Env σ) (domain filename content : Str) (s : σ) :
    Run σ Unit :=
  let data := importData env content
  match processFrontmatter env data with
  | .panic => ⟨.panic, s, []⟩
  | .err e => ⟨.err e, s, []⟩
  | .ok fm =>
    let md := processMarkdown env data s
    match md.result with
    | .panic => ⟨.panic, md.state, md.trace⟩
    | .err e => ⟨.err e, md.state, md.trace⟩
    | .ok data =>
      let slug := formatDate fm.Date ++ "-".toList ++ filename
      let id := env.UUID md.state
      let created := env.now id.2
      let editFile : File :=
        { ID := id.1, Slug := slug, Data := "*".toList ++ slug ++ "*\n\n".toList ++ data,
          Created := created.1, Domain := domain }
      let save1 := env.Save editFile created.2
      match save1.1 with
      | none => ⟨.ok (), save1.2, md.trace ++ [Event.save editFile none]⟩
      | some e1 =>
        let dom := env.SetDomain "travel".toList "123".toList save1.2
        let save2 := env.Save editFile dom.2
        match save2.1 with
        | some e2 =>
          ⟨.err e2, save2.2, md.trace ++ [Event.save editFile (some e1),
            Event.setDomain "travel".toList "123".toList dom.1, Event.save editFile (some e2)]⟩
        | none =>
          ⟨.ok (), save2.2, md.trace ++ [Event.save editFile (some e1),
            Event.setDomain "travel".toList "123".toList dom.1, Event.save editFile none]⟩

/-- The documents passed to `Save`, in call order. -/
def savedFiles : List Event → List File
  | [] => []
  | Event.save f _ :: t => f :: savedFiles t
  | _ :: t => savedFiles t

/-- The outcomes of the calls of `Save`, in call order. -/
def saveResults : List Event → List (Option Error)
  | [] => []
  | Event.save _ r :: t => r :: saveResults t
  | _ :: t => saveResults t

/-- The arguments of the calls of `SetDomain`, in call order. -/
def setDomainCalls : List Event → List (Str × Str)
  | [] => []
  | Event.setDomain d p _ :: t => (d, p) :: setDomainCalls t
  | _ :: t => setDomainCalls t

/-- The links whose ingestion succeeded, with the reference that was returned. -/
def ingested : List Event → List (Str × Str)
  | [] => []
  | Event.ingest l (.ok r) :: t => (l, r) :: ingested t
  | _ :: t => ingested t

/-! ## A concrete environment -/

/-- The frontmatter that TOML decoding leaves untouched: empty strings, the zero time
(1 January of year 1), no tags. -/
def zeroFrontmatter : Frontmatter := ⟨[], [], ⟨1, 1, 1⟩, []⟩

/-- The metadata block of the document `trip.md`. -/
def tripMeta : Str := "\ntitle = \"Trip\"\ndate = 2020-05-01\ntags = [\"a\",\"b\"]\n".toList

/-- The metadata block of a document whose title is the name of its photo. -/
def photoMeta : Str := "\ntitle = \"photo.jpg\"\n".toList

/-- A metadata block made of a key that `Frontmatter` does not have and of a comment line. -/
def plusMeta : Str := "a=\"jpg\"\n#+a=\"j+++\n".toList

/-- A decoder for the examples: a blank block decodes to the zero frontmatter, the block of
`trip.md` decodes to its three fields, the block `photoMeta` to its title, the block
`plusMeta`, which sets no field, to the zero frontmatter, and every other block is
rejected. -/
def demoUnmarshal (found : Str) : Except Error Frontmatter :=
  if found.all isSpace then .ok zeroFrontmatter
  else if found = tripMeta then
    .ok ⟨"Trip".toList, [], ⟨2020, 5, 1⟩, ["a".toList, "b".toList]⟩
  else if found = photoMeta then
    .ok ⟨"photo.jpg".toList, [], ⟨1, 1, 1⟩, []⟩
  else if found = plusMeta then .ok zeroFrontmatter
  else .error ⟨"toml: unsupported input"⟩

/-- An environment for the examples.  The world state is the number of calls of `Save` that
will still fail; `SetDomain` does not change it.  Local files are all readable or all
missing, and every digest is made of 32 zero bytes. -/
def demoEnv (readable : Bool) : Env Nat where
  introText := "This note is empty. Click to edit it.".toList
  unmarshal := demoUnmarshal
  joinPath := fun base path => base ++ path
  osOpen := fun _ s => (if readable then none else some ⟨"open: no such file or directory"⟩, s)
  fileClose := fun _ s => (none, s)
  readFile := fun _ s => (.ok [1, 2, 3], s)
  sha256 := fun _ => List.replicate 32 0
  gzip := fun b => .ok b
  SaveBlob := fun _ _ _ s => (none, s)
  Save := fun _ s => (if s = 0 then none else some ⟨"domain does not exist"⟩, s - 1)
  SetDomain := fun _ _ s => (none, s)
  UUID := fun s => ("uuid".toList, s)
  now := fun s => (0, s)

/-- The document of the end-to-end scenario. -/
def tripContent : Str := "+++".toList ++ tripMeta ++ "+++\nBody text ![x](photo.jpg)".toList

/-- A document whose `+++` block stands after its image reference. -/
def splitContent : Str := "![x](a.jpg) a.j+++\n+++pg".toList

/-- A document whose image path starts with the last digit of its reference. -/
def digitContent : Str := "+++\n+++\n![x](0.jpg.jpg)".toList

/-- A document whose title is the path of its image. -/
def titleContent : Str := "+++".toList ++ photoMeta ++ "+++\n![x](photo.jpg)".toList

/-- A document that starts with `+++` and whose image path starts with `+` and occurs at its
third character. -/
def plusContent : Str := "+++".toList ++ plusMeta ++ "+++pg ![x](+a=\"jpg)".toList

/-- A document whose image path holds, but does not start with, the last digit of its
reference. -/
def imgContent : Str := "+++\n+++\n![x](img0.jpg)".toList

/-- The reference that `processLink` returns in the environment `demoEnv true`. -/
def demoRef : Str := "/uploads/sha256-".toList ++ List.replicate 64 '0'

/-! ## Lemmas -/

/-! ### Lists -/

theorem dropLit_append (cs rest : Str) : dropLit cs (cs ++ rest) = some rest := by
  induction cs with
  | nil => rfl
  | cons d cs ih => simp [dropLit, ih]

theorem dropLit_eq_some {cs s rest : Str} (h : dropLit cs s = some rest) : s = cs ++ rest := by
  induction cs generalizing s with
  | nil => simp [dropLit] at h; simp [h]
  | cons d cs ih =>
    cases s with
    | nil => simp [dropLit] at h
    | cons c s =>
      simp only [dropLit] at h
      split at h
      · rename_i hc
        rw [ih h, hc]; rfl
      · exact absurd h (by simp)

theorem dropLit_eq_none {cs s : Str} (h : ¬ cs <+: s) : dropLit cs s = none := by
  cases hd : dropLit cs s with
  | none => rfl
  | some rest => exact absurd ⟨rest, (dropLit_eq_some hd).symm⟩ h

/-! ### The starred class -/

theorem starK_eq_none {β : Type} (p : Char → Bool) (greedy : Bool) (k : Str → Option β)
    (s : Str) (hk : ∀ t, t <:+ s → k t = none) : starK p greedy k s = none := by
  induction s with
  | nil => simpa [starK] using hk [] (List.suffix_refl _)
  | cons c s ih =>
    have h1 : k (c :: s) = none := hk _ (List.suffix_refl _)
    have h2 : starK p greedy k s = none :=
      ih (fun t ht => hk t (ht.trans (List.suffix_cons c s)))
    simp only [starK, h1, h2]
    cases p c <;> cases greedy <;> simp [orElse]

theorem starK_lazy_skip {β : Type} (p : Char → Bool) (k : Str → Option β) (a s : Str)
    (hp : ∀ c ∈ a, p c = true)
    (hk : ∀ a1 a2, a = a1 ++ a2 → a2 ≠ [] → k (a2 ++ s) = none) :
    starK p false k (a ++ s) = starK p false k s := by
  induction a with
  | nil => rfl
  | cons c a ih =>
    have h1 : k (c :: (a ++ s)) = none := hk [] (c :: a) rfl (by simp)
    have h2 : starK p false k (a ++ s) = starK p false k s :=
      ih (fun x hx => hp x (List.mem_cons_of_mem _ hx))
        (fun a1 a2 e ne => hk (c :: a1) a2 (by simp [e]) ne)
    simp [starK, hp c (List.mem_cons_self _ _), h1, h2, orElse]

theorem starK_lazy_stop {β : Type} (p : Char → Bool) (k : Str → Option β) (s : Str) (v : β)
    (h : k s = some v) : starK p false k s = some v := by
  cases s with
  | nil => simpa [starK] using h
  | cons c s => cases hc : p c <;> simp [starK, h, hc, orElse]

theorem starK_greedy_self {β : Type} (p : Char → Bool) (k : Str → Option β) (s : Str)
    (hk : ∀ t, t <:+ s → t ≠ s → k t = none) : starK p true k s = k s := by
  cases s with
  | nil => rfl
  | cons c s =>
    have h2 : starK p true k s = none :=
      starK_eq_none p true k s (fun t ht =>
        hk t (ht.trans (List.suffix_cons c s)) (fun e => by
          have := ht.length_le
          rw [e] at this
          simp at this))
    cases hc : p c <;> simp [starK, hc, h2, orElse]

theorem starK_greedy_last {β : Type} (p : Char → Bool) (k : Str → Option β) (a s : Str) (v : β)
    (hp : ∀ c ∈ a, p c = true) (hs : k s = some v)
    (hk : ∀ t, t <:+ s → t ≠ s → k t = none) : starK p true k (a ++ s) = some v := by
  induction a with
  | nil => simpa [starK_greedy_self p k s hk] using hs
  | cons c a ih =>
    have h2 := ih (fun x hx => hp x (List.mem_cons_of_mem _ hx))
    simp [starK, hp c (List.mem_cons_self _ _), h2, orElse]

/-! ### Scans -/

theorem run_lit_append {β : Type} (cs rest : Str) (g : Option Str)
    (k : Str → Option Str → Option β) : (Regex.lit cs).run (cs ++ rest) g k = k rest g := by
  simp only [Regex.run, dropLit_append]

theorem run_lit_none {β : Type} (cs s : Str) (g : Option Str)
    (k : Str → Option Str → Option β) (h : ¬ cs <+: s) : (Regex.lit cs).run s g k = none := by
  simp only [Regex.run, dropLit_eq_none h]

theorem replaceAllString_skip (r : Regex) (repl a s : Str) :
    replaceAllString r repl (a ++ s) a.length = replaceAllString r repl s 0 := by
  induction a with
  | nil => rfl
  | cons c a ih => simpa [replaceAllString] using ih

theorem replaceAllString_match (r : Regex) (repl : Str) (c : Char) (a rest : Str)
    (g : Option Str) (hm : matchAt r (c :: (a ++ rest)) = some (rest, g)) :
    replaceAllString r repl (c :: (a ++ rest)) 0 = repl ++ replaceAllString r repl rest 0 := by
  have hl : (c :: (a ++ rest)).length - rest.length - 1 = a.length := by
    simp only [List.length_cons, List.length_append]
    omega
  rw [replaceAllString, hm]
  simp only [hl, replaceAllString_skip]

theorem replaceAllString_id (r : Regex) (repl s : Str)
    (h : ∀ t, t <:+ s → matchAt r t = none) : replaceAllString r repl s 0 = s := by
  induction s with
  | nil => rfl
  | cons c s ih =>
    simp [replaceAllString, h _ (List.suffix_refl _),
      ih (fun t ht => h t (ht.trans (List.suffix_cons c s)))]

theorem matchAt_lit_cat_none (cs : Str) (b : Regex) (s : Str) (h : ¬ cs <+: s) :
    matchAt (.cat (.lit cs) b) s = none := by
  simp only [matchAt, Regex.run, dropLit_eq_none h]

/-! ### The frontmatter block -/

theorem matchAt_frontmatterRe (m body : Str)
    (hbody : ¬ "+++".toList <:+: "++".toList ++ body) :
    matchAt frontmatterRe ("+++".toList ++ (m ++ ("+++".toList ++ body))) =
      some (body, some m) := by
  simp only [matchAt, frontmatterRe, Regex.run, dropLit_append]
  rw [starK_greedy_last dotAll _ m ("+++".toList ++ body) (body, some m)]
  · intro c _; rfl
  · simp only [dropLit_append]
    simp
  · intro t ht hne
    have hnp : ¬ "+++".toList <+: t := by
      intro hpre
      apply hbody
      have hlen : t.length < ("+++".toList ++ body).length :=
        lt_of_le_of_ne ht.length_le (fun e => hne (ht.eq_of_length e))
      obtain ⟨u, hu⟩ := ht
      have hu1 : u ≠ [] := by
        intro e0; rw [e0] at hu; simp at hu; rw [hu] at hlen; simp at hlen
      obtain ⟨x, u', rfl⟩ := List.exists_cons_of_ne_nil hu1
      have hx : u' ++ t = "++".toList ++ body := by
        have := congrArg List.tail hu
        simpa using this
      have : t <:+ "++".toList ++ body := ⟨u', hx⟩
      exact hpre.isInfix.trans this.isInfix
    simp only [dropLit_eq_none hnp]

theorem stripFrontmatter_block (m body : Str)
    (hbody : ¬ "+++".toList <:+: "++".toList ++ body) :
    stripFrontmatter ("+++".toList ++ m ++ "+++".toList ++ body) = body := by
  have hm := matchAt_frontmatterRe m body hbody
  have hb : ∀ t, t <:+ body → matchAt frontmatterRe t = none := by
    intro t ht
    apply matchAt_lit_cat_none
    intro hpre
    apply hbody
    exact hpre.isInfix.trans (ht.isInfix.trans ⟨"++".toList, [], by simp⟩)
  have e : "+++".toList ++ m ++ "+++".toList ++ body =
      '+' :: (("++".toList ++ (m ++ "+++".toList)) ++ body) := by
    simp
  have e2 : "+++".toList ++ (m ++ ("+++".toList ++ body)) =
      '+' :: (("++".toList ++ (m ++ "+++".toList)) ++ body) := by
    simp
  rw [e2] at hm
  unfold stripFrontmatter
  rw [e, replaceAllString_match _ _ _ _ _ _ hm, replaceAllString_id _ _ _ hb]
  rfl

theorem dropLit_self (cs : Str) : dropLit cs cs = some [] := by
  simpa using dropLit_append cs []

theorem take_sub_length (a b : Str) : (a ++ b).take ((a ++ b).length - b.length) = a := by
  have : (a ++ b).length - b.length = a.length := by
    simp only [List.length_append]; omega
  rw [this, List.take_left']
  rfl

theorem run_star_lazy_skip {β : Type} (p : Char → Bool) (a s : Str) (g : Option Str)
    (k : Str → Option Str → Option β) (hp : ∀ c ∈ a, p c = true)
    (hk : ∀ a1 a2, a = a1 ++ a2 → a2 ≠ [] → k (a2 ++ s) g = none) :
    (Regex.star p false).run (a ++ s) g k = (Regex.star p false).run s g k := by
  simp only [Regex.run]
  exact starK_lazy_skip p _ a s hp hk

theorem run_star_lazy_stop {β : Type} (p : Char → Bool) (s : Str) (g : Option Str)
    (k : Str → Option Str → Option β) (v : β) (h : k s g = some v) :
    (Regex.star p false).run s g k = some v := by
  simp only [Regex.run]
  exact starK_lazy_stop p _ s v h

theorem run_star_none {β : Type} (p : Char → Bool) (greedy : Bool) (s : Str) (g : Option Str)
    (k : Str → Option Str → Option β) (h : ∀ t, t <:+ s → k t g = none) :
    (Regex.star p greedy).run s g k = none := by
  simp only [Regex.run]
  exact starK_eq_none p greedy _ s h

/-! ### The image pattern -/

/-- The pattern of `findLinks`, with its concatenations nested to the right. -/
theorem linkRe_eq : linkRe = .cat (.lit "![".toList) (.cat (.star dot false)
    (.cat (.lit "](".toList)
      (.cat (.group (.alt (.cat (.star dot false) (.lit "jpg".toList)) (.lit "jpeg".toList)))
        (.cat (.star dot false) (.lit ")".toList))))) := rfl

theorem dot_of_ne {c : Char} (h : c ≠ '\n') : dot c = true := by
  simp [dot, h]

theorem not_prefix_cons {c x : Char} (cs t : Str) (h : x ≠ c) : ¬ (c :: cs) <+: (x :: t) := by
  intro hpre
  exact h (List.cons_prefix_cons.1 hpre).1.symm

theorem run_close {β : Type} (p2 : Str) (g : Option Str) (k : Str → Option Str → Option β)
    (v : β) (hp2 : ∀ c ∈ p2, c ≠ ')' ∧ c ≠ '\n') (hk : k [] g = some v) :
    (Regex.cat (.star dot false) (.lit ")".toList)).run (p2 ++ ")".toList) g k = some v := by
  rw [Regex.run, run_star_lazy_skip, run_star_lazy_stop]
  · simp only [Regex.run, dropLit_self, hk]
  · intro c hc; exact dot_of_ne (hp2 c hc).2
  · intro a1 a2 e ne
    obtain ⟨x, a2', rfl⟩ := List.exists_cons_of_ne_nil ne
    have hx : x ∈ p2 := by rw [e]; simp
    exact run_lit_none _ _ _ _ (not_prefix_cons _ _ (hp2 _ hx).1)

/-- The first branch of the group, on a path whose first `jpg` ends the part `p1 ++ jpg`. -/
theorem run_jpg_branch {β : Type} (p1 rest : Str) (g : Option Str)
    (k : Str → Option Str → Option β) (v : β) (hp1 : ∀ c ∈ p1, c ≠ '\n')
    (hfirst : ¬ "jpg".toList <:+: p1 ++ "jp".toList) (hk : k rest g = some v) :
    (Regex.cat (.star dot false) (.lit "jpg".toList)).run (p1 ++ ("jpg".toList ++ rest)) g k
      = some v := by
  rw [Regex.run, run_star_lazy_skip, run_star_lazy_stop]
  · rw [run_lit_append, hk]
  · intro c hc; exact dot_of_ne (hp1 c hc)
  · intro a1 a2 e ne
    apply run_lit_none
    intro hpre
    apply hfirst
    obtain ⟨x, a2', rfl⟩ := List.exists_cons_of_ne_nil ne
    have h3 : "jpg".toList <+: (x :: a2') ++ "jp".toList := by
      have hle : "jpg".toList.length ≤ ((x :: a2') ++ "jp".toList).length := by
        simp
      have h4 : (x :: a2') ++ "jp".toList <+: (x :: a2') ++ ("jpg".toList ++ rest) :=
        (List.prefix_append_right_inj _).2 ⟨'g' :: rest, by simp⟩
      exact List.prefix_of_prefix_length_le hpre h4 hle
    rw [e]
    exact h3.isInfix.trans ⟨a1, [], by simp⟩

theorem matchAt_linkRe_jpg (alt p1 p2 : Str) (halt : ∀ c ∈ alt, c ≠ ']' ∧ c ≠ '\n')
    (hp1 : ∀ c ∈ p1, c ≠ '\n') (hp2 : ∀ c ∈ p2, c ≠ ')' ∧ c ≠ '\n')
    (hfirst : ¬ "jpg".toList <:+: p1 ++ "jp".toList) :
    matchAt linkRe ("![".toList ++ (alt ++ ("](".toList ++
      (p1 ++ ("jpg".toList ++ (p2 ++ ")".toList)))))) = some ([], some (p1 ++ "jpg".toList)) := by
  rw [matchAt, linkRe_eq, Regex.run, run_lit_append, Regex.run, run_star_lazy_skip,
    run_star_lazy_stop]
  · rw [Regex.run, run_lit_append, Regex.run, Regex.run, Regex.run]
    rw [run_jpg_branch p1 _ none _ ([], some (p1 ++ "jpg".toList)) hp1 hfirst]
    · rfl
    · rw [run_close p2 _ _ ([], some (p1 ++ "jpg".toList)) hp2]
      have := take_sub_length (p1 ++ "jpg".toList) (p2 ++ ")".toList)
      simp only [List.append_assoc] at this
      rw [this]
  · intro c hc; exact dot_of_ne (halt c hc).2
  · intro a1 a2 e ne
    obtain ⟨x, a2', rfl⟩ := List.exists_cons_of_ne_nil ne
    have hx : x ∈ alt := by rw [e]; simp
    rw [Regex.run]
    exact run_lit_none _ _ _ _ (not_prefix_cons _ _ (halt _ hx).1)

theorem hasPrefix_iff (s p : Str) : hasPrefix s p = true ↔ p <+: s := by
  induction s generalizing p with
  | nil => cases p <;> simp [hasPrefix]
  | cons c s ih =>
    cases p with
    | nil => simp [hasPrefix]
    | cons d p =>
      simp only [hasPrefix, Bool.and_eq_true, beq_iff_eq, ih, List.cons_prefix_cons]
      constructor
      · rintro ⟨h1, h2⟩; exact ⟨h1.symm, h2⟩
      · rintro ⟨h1, h2⟩; exact ⟨h1.symm, h2⟩

theorem contains_iff (s sub : Str) : contains s sub = true ↔ sub <:+: s := by
  induction s with
  | nil =>
    simp only [contains, hasPrefix_iff]
    constructor
    · intro h; exact h.isInfix
    · intro h; rw [List.infix_nil] at h; rw [h]
  | cons c s ih =>
    simp only [contains, Bool.or_eq_true, hasPrefix_iff, ih, List.infix_cons_iff]

theorem findAllSubmatch_skip (r : Regex) (a s : Str) :
    findAllSubmatch r (a ++ s) a.length = findAllSubmatch r s 0 := by
  induction a with
  | nil => rfl
  | cons c a ih => simpa [findAllSubmatch] using ih

theorem findAllSubmatch_match (r : Regex) (c : Char) (a rest : Str)
    (g : Option Str) (hm : matchAt r (c :: (a ++ rest)) = some (rest, g)) :
    findAllSubmatch r (c :: (a ++ rest)) 0 = g.getD [] :: findAllSubmatch r rest 0 := by
  have hl : (c :: (a ++ rest)).length - rest.length - 1 = a.length := by
    simp only [List.length_cons, List.length_append]
    omega
  rw [findAllSubmatch, hm]
  simp only [hl, findAllSubmatch_skip, groupText]

theorem findAllSubmatch_none (r : Regex) (s : Str)
    (h : ∀ t, t <:+ s → matchAt r t = none) : findAllSubmatch r s 0 = [] := by
  induction s with
  | nil => rfl
  | cons c s ih =>
    simp [findAllSubmatch, h _ (List.suffix_refl _),
      ih (fun t ht => h t (ht.trans (List.suffix_cons c s)))]

/-- What `findLinks` returns on a document that is one image reference whose path contains
`jpg`: the part of the path up to its first `jpg`, unless that part contains `http`. -/
theorem findLinks_image_jpg (alt p1 p2 : Str) (halt : ∀ c ∈ alt, c ≠ ']' ∧ c ≠ '\n')
    (hp1 : ∀ c ∈ p1, c ≠ '\n') (hp2 : ∀ c ∈ p2, c ≠ ')' ∧ c ≠ '\n')
    (hfirst : ¬ "jpg".toList <:+: p1 ++ "jp".toList) :
    findLinks ("![".toList ++ alt ++ "](".toList ++ (p1 ++ "jpg".toList ++ p2) ++ ")".toList) =
      if "http".toList <:+: p1 ++ "jpg".toList then [] else [p1 ++ "jpg".toList] := by
  have hm := matchAt_linkRe_jpg alt p1 p2 halt hp1 hp2 hfirst
  have e : "![".toList ++ alt ++ "](".toList ++ (p1 ++ "jpg".toList ++ p2) ++ ")".toList =
      '!' :: (("[".toList ++ (alt ++ ("](".toList ++
        (p1 ++ ("jpg".toList ++ (p2 ++ ")".toList)))))) ++ []) := by
    simp
  have e2 : "![".toList ++ (alt ++ ("](".toList ++
      (p1 ++ ("jpg".toList ++ (p2 ++ ")".toList))))) =
      '!' :: (("[".toList ++ (alt ++ ("](".toList ++
        (p1 ++ ("jpg".toList ++ (p2 ++ ")".toList)))))) ++ []) := by
    simp
  rw [e2] at hm
  rw [findLinks, e, findAllSubmatch_match _ _ _ _ _ hm]
  simp only [findAllSubmatch, Option.getD_some, List.filter_cons, List.filter_nil]
  by_cases hh : "http".toList <:+: p1 ++ "jpg".toList
  · rw [if_pos hh, (contains_iff _ _).2 hh]
    rfl
  · have hc : contains (p1 ++ "jpg".toList) "http".toList = false := by
      rw [← Bool.not_eq_true, contains_iff]; exact hh
    rw [if_neg hh, hc]
    rfl

theorem infix_of_infix_concat {x s : Str} {c : Char} (hx : x ≠ []) (hc : c ∉ x)
    (h : x <:+: s ++ [c]) : x <:+: s := by
  rcases List.infix_concat_iff.1 h with h1 | h1
  · rcases List.suffix_concat_iff.1 h1 with h2 | ⟨t, rfl, _⟩
    · exact absurd h2 hx
    · exact absurd (by simp) hc
  · exact h1

theorem tail_eq_of_suffix {c : Char} {r a b : Str} (ha : c ∉ a) (hb : c ∉ b)
    (h : c :: r <:+ a ++ c :: b) : r = b := by
  induction a with
  | nil =>
    rcases List.suffix_cons_iff.1 h with h1 | h1
    · simpa using h1
    · exact absurd (h1.subset (List.mem_cons_self _ _)) hb
  | cons x a ih =>
    rcases List.suffix_cons_iff.1 h with h1 | h1
    · have : c = x := by simpa using (List.cons.inj h1).1
      exact absurd (by simp [this]) ha
    · exact ih (fun hm => ha (List.mem_cons_of_mem _ hm)) h1

theorem matchAt_linkRe_none (alt path : Str) (halt : ∀ c ∈ alt, c ≠ ']')
    (hpath : ∀ c ∈ path, c ≠ ']')
    (hjpg : ¬ "jpg".toList <:+: path) (hjpeg : ¬ "jpeg".toList <+: path) :
    matchAt linkRe ("![".toList ++ (alt ++ ("](".toList ++ (path ++ ")".toList)))) = none := by
  rw [matchAt, linkRe_eq, Regex.run, run_lit_append, Regex.run]
  apply run_star_none
  intro t ht
  rw [Regex.run]
  by_cases hpre : "](".toList <+: t
  · obtain ⟨r, rfl⟩ := hpre
    have hr : '(' :: r = '(' :: (path ++ ")".toList) := by
      apply tail_eq_of_suffix (c := ']') (a := alt)
      · intro hm; exact halt _ hm rfl
      · intro hm
        simp only [List.mem_cons, List.mem_append] at hm
        rcases hm with h | h | h
        · exact absurd h (by decide)
        · exact hpath _ h rfl
        · simp at h
      · exact ht
    have hr2 : r = path ++ ")".toList := (List.cons.inj hr).2
    subst hr2
    rw [run_lit_append]
    simp only [Regex.run]
    have h1 : ∀ t, t <:+ path ++ ")".toList → dropLit "jpg".toList t = none := by
      intro t ht
      apply dropLit_eq_none
      intro hp
      apply hjpg
      exact infix_of_infix_concat (c := ')') (by simp) (by simp) (hp.isInfix.trans ht.isInfix)
    have h2 : dropLit "jpeg".toList (path ++ ")".toList) = none := by
      apply dropLit_eq_none
      intro hp
      rcases List.prefix_concat_iff.1 hp with h | h
      · have := congrArg List.getLast? h
        simp at this
      · exact hjpeg h
    rw [starK_eq_none, h2]
    · rfl
    · intro t ht
      simp only [h1 t ht]
  · exact run_lit_none _ _ _ _ hpre

/-- What `findLinks` returns on a document that is one image reference whose path neither
contains `jpg` nor starts with `jpeg`: nothing. -/
theorem findLinks_image_other (alt path : Str) (halt : ∀ c ∈ alt, c ≠ '[' ∧ c ≠ ']')
    (hpath : ∀ c ∈ path, c ≠ '[' ∧ c ≠ ']')
    (hjpg : ¬ "jpg".toList <:+: path) (hjpeg : ¬ "jpeg".toList <+: path) :
    findLinks ("![".toList ++ alt ++ "](".toList ++ path ++ ")".toList) = [] := by
  have e : "![".toList ++ alt ++ "](".toList ++ path ++ ")".toList =
      "![".toList ++ (alt ++ ("](".toList ++ (path ++ ")".toList))) := by
    simp
  rw [findLinks, e, findAllSubmatch_none]
  · rfl
  · intro t ht
    rcases List.suffix_cons_iff.1 ht with h | h
    · rw [h]
      exact matchAt_linkRe_none alt path (fun c hc => (halt c hc).2) (fun c hc => (hpath c hc).2)
        hjpg hjpeg
    · rw [linkRe_eq]
      apply matchAt_lit_cat_none
      intro hp
      obtain ⟨r, rfl⟩ := hp
      rcases List.suffix_cons_iff.1 h with h1 | h1
      · simp at h1
      · have hm : '[' ∈ alt ++ ("](".toList ++ (path ++ ")".toList)) :=
          h1.subset (by simp)
        simp only [List.mem_append] at hm
        rcases hm with h | h | h | h
        · exact (halt _ h).1 rfl
        · simp at h
        · exact (hpath _ h).1 rfl
        · simp at h

/-! ### `strings.Replace` -/

theorem replaceScan_skip (old new a s : Str) :
    replaceScan old new (a ++ s) a.length = replaceScan old new s 0 := by
  induction a with
  | nil => rfl
  | cons c a ih => simpa [replaceScan] using ih

theorem replaceScan_match (old new rest : Str) (hold : old ≠ []) :
    replaceScan old new (old ++ rest) 0 = new ++ replaceScan old new rest 0 := by
  obtain ⟨c, o, rfl⟩ := List.exists_cons_of_ne_nil hold
  have hp : hasPrefix (c :: (o ++ rest)) (c :: o) = true :=
    (hasPrefix_iff _ _).2 ⟨rest, rfl⟩
  have hl : (c :: o).length - 1 = o.length := by simp
  rw [List.cons_append, replaceScan, if_pos hp, hl, replaceScan_skip]

theorem replaceScan_cons (old new : Str) (c : Char) (t : Str) (h : ¬ old <+: c :: t) :
    replaceScan old new (c :: t) 0 = c :: replaceScan old new t 0 := by
  have hp : ¬ hasPrefix (c :: t) old = true := fun hp => h ((hasPrefix_iff _ _).1 hp)
  rw [replaceScan, if_neg hp]

theorem infix_append_cases {x a b : Str} (h : x <:+: a ++ b) :
    x <:+: a ∨ x <:+: b ∨ ∃ p q, p ≠ [] ∧ x = p ++ q ∧ p <:+ a ∧ q <+: b := by
  induction a with
  | nil => exact Or.inr (Or.inl h)
  | cons c a ih =>
    rcases List.infix_cons_iff.1 h with h1 | h1
    · rcases List.prefix_or_prefix_of_prefix h1 (List.prefix_append (c :: a) b) with h2 | h2
      · exact Or.inl h2.isInfix
      · obtain ⟨q, rfl⟩ := h2
        refine Or.inr (Or.inr ⟨c :: a, q, by simp, rfl, List.suffix_refl _, ?_⟩)
        exact (List.prefix_append_right_inj _).1 h1
    · rcases ih h1 with h2 | h2 | ⟨p, q, hp, hx, hpa, hq⟩
      · exact Or.inl (h2.trans (List.suffix_cons c a).isInfix)
      · exact Or.inr (Or.inl h2)
      · exact Or.inr (Or.inr ⟨p, q, hp, hx, hpa.trans (List.suffix_cons c a), hq⟩)

/-! ### Soundness of the matcher -/

theorem starK_sound {β : Type} (p : Char → Bool) (greedy : Bool) (k : Str → Option β)
    (s : Str) (v : β) (h : starK p greedy k s = some v) :
    ∃ w rest, s = w ++ rest ∧ (∀ c ∈ w, p c = true) ∧ k rest = some v := by
  induction s with
  | nil => exact ⟨[], [], rfl, by simp, by simpa [starK] using h⟩
  | cons c s ih =>
    have here : k (c :: s) = some v →
        ∃ w rest, c :: s = w ++ rest ∧ (∀ x ∈ w, p x = true) ∧ k rest = some v :=
      fun hk => ⟨[], c :: s, rfl, by simp, hk⟩
    have more : p c = true → starK p greedy k s = some v →
        ∃ w rest, c :: s = w ++ rest ∧ (∀ x ∈ w, p x = true) ∧ k rest = some v := by
      intro hc hs
      obtain ⟨w, rest, e, hw, hk⟩ := ih hs
      refine ⟨c :: w, rest, by simp [e], ?_, hk⟩
      intro x hx
      rcases List.mem_cons.1 hx with rfl | hx
      · exact hc
      · exact hw x hx
    simp only [starK] at h
    by_cases hc : p c = true
    · simp only [hc, if_true] at h
      cases greedy
      · simp only [Bool.false_eq_true, if_false] at h
        cases hk : k (c :: s) with
        | some b => rw [hk] at h; exact here (by rw [hk]; exact h)
        | none => rw [hk] at h; exact more hc h
      · simp only [if_true] at h
        cases hs : starK p true k s with
        | some b => rw [hs] at h; exact more hc (by rw [hs]; exact h)
        | none => rw [hs] at h; exact here h
    · simp only [hc, if_false] at h
      exact here h

theorem run_sound {β : Type} (r : Regex) :
    ∀ (s : Str) (g : Option Str) (k : Str → Option Str → Option β) (v : β),
      r.run s g k = some v →
      ∃ w rest g1, s = w ++ rest ∧ r.Matches w g g1 ∧ k rest g1 = some v := by
  induction r with
  | lit cs =>
    intro s g k v h
    simp only [Regex.run] at h
    cases hd : dropLit cs s with
    | none => rw [hd] at h; exact absurd h (by simp)
    | some rest =>
      rw [hd] at h
      exact ⟨cs, rest, g, dropLit_eq_some hd, ⟨rfl, rfl⟩, h⟩
  | star p greedy =>
    intro s g k v h
    simp only [Regex.run] at h
    obtain ⟨w, rest, e, hw, hk⟩ := starK_sound p greedy _ s v h
    exact ⟨w, rest, g, e, ⟨hw, rfl⟩, hk⟩
  | cat a b iha ihb =>
    intro s g k v h
    simp only [Regex.run] at h
    obtain ⟨u, rest1, g2, e1, ha, h1⟩ := iha s g _ v h
    obtain ⟨w, rest, g1, e2, hb, h2⟩ := ihb rest1 g2 k v h1
    exact ⟨u ++ w, rest, g1, by rw [e1, e2, List.append_assoc], ⟨u, w, g2, rfl, ha, hb⟩, h2⟩
  | alt a b iha ihb =>
    intro s g k v h
    simp only [Regex.run] at h
    cases h1 : a.run s g k with
    | some x =>
      rw [h1] at h
      obtain ⟨w, rest, g1, e, ha, hk⟩ := iha s g k v (by rw [h1]; exact h)
      exact ⟨w, rest, g1, e, Or.inl ha, hk⟩
    | none =>
      rw [h1] at h
      obtain ⟨w, rest, g1, e, hb, hk⟩ := ihb s g k v h
      exact ⟨w, rest, g1, e, Or.inr hb, hk⟩
  | group a iha =>
    intro s g k v h
    simp only [Regex.run] at h
    obtain ⟨w, rest, g2, e, ha, hk⟩ := iha s g _ v h
    refine ⟨w, rest, some w, e, ⟨⟨g2, ha⟩, rfl⟩, ?_⟩
    rw [e, take_sub_length] at hk
    exact hk

/-- The capture group of a match of the pattern of `findLinks` ends in `jpg` or is `jpeg`. -/
theorem matchAt_linkRe_group (s : Str) (m : Str × Option Str) (h : matchAt linkRe s = some m) :
    ∃ l, m.2 = some l ∧ ((∃ l0, l = l0 ++ "jpg".toList) ∨ l = "jpeg".toList) := by
  obtain ⟨w, rest, g1, _, hm, hk⟩ := run_sound linkRe s none _ m h
  simp only [Option.some.injEq] at hk
  subst hk
  simp only [linkRe_eq, Regex.Matches] at hm
  obtain ⟨_, _, _, _, ⟨_, rfl⟩, _, _, _, _, ⟨_, rfl⟩, _, _, _, _, ⟨_, rfl⟩, u, v, g5, _, ⟨hg, rfl⟩,
    _, _, _, _, ⟨_, rfl⟩, _, rfl⟩ := hm
  refine ⟨u, rfl, ?_⟩
  obtain ⟨_, hg⟩ := hg
  rcases hg with ⟨a, b, _, rfl, _, hb, _⟩ | ⟨hj, _⟩
  · exact Or.inl ⟨a, by rw [hb]⟩
  · exact Or.inr hj

theorem findAllSubmatch_linkRe_mem (s : Str) :
    ∀ (n : Nat) (l : Str), l ∈ findAllSubmatch linkRe s n →
      (∃ l0, l = l0 ++ "jpg".toList) ∨ l = "jpeg".toList := by
  induction s with
  | nil => intro n l h; simp [findAllSubmatch] at h
  | cons c s ih =>
    intro n l h
    cases n with
    | succ n => exact ih n l (by simpa [findAllSubmatch] using h)
    | zero =>
      rw [findAllSubmatch] at h
      cases hm : matchAt linkRe (c :: s) with
      | none => rw [hm] at h; exact ih 0 l h
      | some m =>
        rw [hm] at h
        rcases List.mem_cons.1 h with h1 | h1
        · obtain ⟨l1, e1, hl⟩ := matchAt_linkRe_group _ m hm
          rw [h1, groupText, e1]
          exact hl
        · exact ih _ l h1

/-- Every path that `findLinks` returns ends in `jpg` or is `jpeg`, and holds no `http`. -/
theorem findLinks_mem (content l : Str) (h : l ∈ findLinks content) :
    ((∃ l0, l = l0 ++ "jpg".toList) ∨ l = "jpeg".toList) ∧ ¬ "http".toList <:+: l := by
  rw [findLinks, List.mem_filter] at h
  refine ⟨findAllSubmatch_linkRe_mem content 0 l h.1, ?_⟩
  intro hh
  have hc := (contains_iff _ _).2 hh
  have h2 := h.2
  rw [hc] at h2
  exact absurd h2 (by decide)

theorem findLinks_mem_last (content l : Str) (h : l ∈ findLinks content) :
    ∃ l0, l = l0 ++ ['g'] := by
  rcases (findLinks_mem content l h).1 with ⟨l0, rfl⟩ | rfl
  · exact ⟨l0 ++ "jp".toList, by simp⟩
  · exact ⟨"jpe".toList, rfl⟩

/-! ### Ingestion -/

theorem hexDigit_mem (n : Nat) : hexDigit n ∈ "0123456789abcdef".toList := by
  have h : n % 16 < 16 := Nat.mod_lt _ (by decide)
  unfold hexDigit
  generalize n % 16 = m at h
  interval_cases m <;> decide

theorem hexEncode_mem (b : Bytes) (c : Char) (h : c ∈ hexEncode b) :
    c ∈ "0123456789abcdef".toList := by
  simp only [hexEncode, List.mem_flatMap] at h
  obtain ⟨x, _, hx⟩ := h
  simp only [List.mem_cons, List.mem_singleton, List.not_mem_nil, or_false] at hx
  rcases hx with rfl | rfl
  · exact hexDigit_mem _
  · exact hexDigit_mem _

/-- A reference returned by `processLink` is `/uploads/sha256-` followed by the hexadecimal
digits of a digest. -/
theorem processLink_ok {σ : Type} (env : Env σ) (path : Str) (s : σ) (r : Str)
    (h : (processLink env path s).1 = .ok r) :
    ∃ d, r = "/uploads/sha256-".toList ++ hexEncode d := by
  unfold processLink at h
  simp only at h
  split at h
  · simp at h
  · split at h
    · simp at h
    · split at h
      · simp at h
      · split at h
        · simp at h
        · split at h
          · simp at h
          · simp only [Except.ok.injEq] at h
            rw [← h]
            exact ⟨_, rfl⟩

theorem reference_no_g (d : Bytes) : 'g' ∉ "/uploads/sha256-".toList ++ hexEncode d := by
  intro h
  rcases List.mem_append.1 h with h1 | h1
  · exact absurd h1 (by decide)
  · exact absurd (hexEncode_mem d 'g' h1) (by decide)

/-! ### The loop over the links -/

theorem linkLoop_cons_error {σ : Type} (env : Env σ) (l : Str) (links : List Str) (c : Str)
    (s s1 : σ) (e : Error) (h : processLink env l s = (.error e, s1)) :
    linkLoop env (l :: links) c s =
      ⟨(linkLoop env links c s1).content, (linkLoop env links c s1).state,
        Event.ingest l (.error e) :: (linkLoop env links c s1).trace⟩ := by
  simp [linkLoop, h]

theorem linkLoop_cons_ok {σ : Type} (env : Env σ) (l : Str) (links : List Str) (c : Str)
    (s s1 : σ) (r : Str) (h : processLink env l s = (.ok r, s1)) :
    linkLoop env (l :: links) c s =
      ⟨(linkLoop env links (updateMarkdown c l r) s1).content,
        (linkLoop env links (updateMarkdown c l r) s1).state,
        Event.ingest l (.ok r) :: (linkLoop env links (updateMarkdown c l r) s1).trace⟩ := by
  simp [linkLoop, h]

theorem linkLoop_ingested {σ : Type} (env : Env σ) (links : List Str) :
    ∀ (c : Str) (s : σ) (p : Str × Str), p ∈ ingested (linkLoop env links c s).trace →
      p.1 ∈ links ∧ ∃ d, p.2 = "/uploads/sha256-".toList ++ hexEncode d := by
  induction links with
  | nil => intro c s p h; simp [linkLoop, ingested] at h
  | cons l links ih =>
    intro c s p h
    rcases hp : processLink env l s with ⟨e | r, s1⟩
    · rw [linkLoop_cons_error env l links c s s1 e hp] at h
      simp only [ingested] at h
      obtain ⟨h1, h2⟩ := ih c s1 p h
      exact ⟨List.mem_cons_of_mem _ h1, h2⟩
    · rw [linkLoop_cons_ok env l links c s s1 r hp] at h
      simp only [ingested] at h
      rcases List.mem_cons.1 h with h1 | h1
      · subst h1
        exact ⟨List.mem_cons_self _ _, processLink_ok env l s r (by rw [hp])⟩
      · obtain ⟨h2, h3⟩ := ih _ s1 p h1
        exact ⟨List.mem_cons_of_mem _ h2, h3⟩

/-! ### The orchestrator -/

theorem stringsJoin_eq_intercalate (xs : List Str) (sep : Str) :
    stringsJoin xs sep = sep.intercalate xs := by
  induction xs with
  | nil => rfl
  | cons a t ih =>
    cases t with
    | nil => simp [stringsJoin, List.intercalate]
    | cons b rest =>
      simp only [stringsJoin, ih]
      simp [List.intercalate, List.intersperse]

theorem findSubmatch_none (r : Regex) (s : Str) (h : ∀ t, t <:+ s → matchAt r t = none) :
    findSubmatch r s = none := by
  induction s with
  | nil => simp [findSubmatch, h [] (List.suffix_refl _)]
  | cons c s ih =>
    simp [findSubmatch, h _ (List.suffix_refl _),
      ih (fun t ht => h t (ht.trans (List.suffix_cons c s)))]

/-- Without a `+++` in the content, `processFrontmatter` panics. -/
theorem processFrontmatter_no_marker {σ : Type} (env : Env σ) (content : Str)
    (h : ¬ "+++".toList <:+: content) : processFrontmatter env content = .panic := by
  have hn : findSubmatch frontmatterRe content = none := by
    apply findSubmatch_none
    intro t ht
    apply matchAt_lit_cat_none
    intro hp
    exact h (hp.isInfix.trans ht.isInfix)
  simp [processFrontmatter, hn]

theorem importData_of_ok {σ : Type} (env : Env σ) (content : Str) (fm : Frontmatter)
    (h : processFrontmatter env (importData env content) = .ok fm) :
    importData env content = TrimSpace content := by
  unfold importData at h ⊢
  by_cases hi : TrimSpace content = env.introText
  · simp [hi, processFrontmatter_no_marker env [] (by decide)] at h
  · simp [hi]

theorem processMarkdown_of_ok {σ : Type} (env : Env σ) (content : Str) (s : σ) (fm : Frontmatter)
    (h : processFrontmatter env content = .ok fm) :
    processMarkdown env content s =
      ⟨.ok (replaceFrontmatter (linkLoop env (findLinks content) content s).content fm),
        (linkLoop env (findLinks content) content s).state,
        (linkLoop env (findLinks content) content s).trace⟩ := by
  simp [processMarkdown, h]

theorem saveResults_append (a b : List Event) :
    saveResults (a ++ b) = saveResults a ++ saveResults b := by
  induction a with
  | nil => rfl
  | cons e t ih => cases e <;> simp [saveResults, ih]

theorem savedFiles_append (a b : List Event) :
    savedFiles (a ++ b) = savedFiles a ++ savedFiles b := by
  induction a with
  | nil => rfl
  | cons e t ih => cases e <;> simp [savedFiles, ih]

theorem setDomainCalls_append (a b : List Event) :
    setDomainCalls (a ++ b) = setDomainCalls a ++ setDomainCalls b := by
  induction a with
  | nil => rfl
  | cons e t ih => cases e <;> simp [setDomainCalls, ih]

theorem linkLoop_trace_quiet {σ : Type} (env : Env σ) (links : List Str) (content : Str) (s : σ) :
    saveResults (linkLoop env links content s).trace = [] ∧
    savedFiles (linkLoop env links content s).trace = [] ∧
    setDomainCalls (linkLoop env links content s).trace = [] := by
  induction links generalizing content s with
  | nil => simp [linkLoop, saveResults, savedFiles, setDomainCalls]
  | cons l t ih =>
    simp only [linkLoop]
    split
    · simp [saveResults, savedFiles, setDomainCalls, ih]
    · simp [saveResults, savedFiles, setDomainCalls, ih]

theorem linkLoop_content_of_none {σ : Type} (env : Env σ) (links : List Str) :
    ∀ (c : Str) (s : σ), ingested (linkLoop env links c s).trace = [] →
      (linkLoop env links c s).content = c := by
  induction links with
  | nil => intro c s _; rfl
  | cons l links ih =>
    intro c s h
    rcases hp : processLink env l s with ⟨e | r, s1⟩
    · rw [linkLoop_cons_error env l links c s s1 e hp] at h ⊢
      exact ih c s1 h
    · rw [linkLoop_cons_ok env l links c s s1 r hp] at h
      simp [ingested] at h

theorem not_infix_plus (body : Str) (h1 : ¬ "+++".toList <:+: body)
    (h2 : ¬ "+".toList <+: body) : ¬ "+++".toList <:+: "++".toList ++ body := by
  intro h
  have e : "++".toList ++ body = '+' :: '+' :: body := rfl
  rw [e] at h
  rcases List.infix_cons_iff.1 h with h3 | h3
  · cases body with
    | nil => simp at h3
    | cons b body =>
      have : b = '+' := by
        have := List.cons_prefix_cons.1 h3
        have := List.cons_prefix_cons.1 this.2
        have := List.cons_prefix_cons.1 this.2
        exact this.1.symm
      exact h2 (by rw [this]; exact ⟨body, rfl⟩)
  · rcases List.infix_cons_iff.1 h3 with h4 | h4
    · cases body with
      | nil => simp at h4
      | cons b body =>
        have : b = '+' := by
          have := List.cons_prefix_cons.1 h4
          have := List.cons_prefix_cons.1 this.2
          exact this.1.symm
        exact h2 (by rw [this]; exact ⟨body, rfl⟩)
    · exact h1 h4

/-! ### The block that the strip removes -/

theorem not_prefix_of_first (lit p1 a1 a2 rest : Str) (hlit : lit ≠ [])
    (hfirst : ¬ lit <:+: p1 ++ lit.dropLast) (e : p1 = a1 ++ a2) (ne : a2 ≠ []) :
    ¬ lit <+: a2 ++ (lit ++ rest) := by
  intro hpre
  apply hfirst
  have hle : lit.length ≤ (a2 ++ lit.dropLast).length := by
    have h1 : 0 < a2.length := List.length_pos.2 ne
    have h2 : 0 < lit.length := List.length_pos.2 hlit
    simp only [List.length_append, List.length_dropLast]
    omega
  have h4 : a2 ++ lit.dropLast <+: a2 ++ (lit ++ rest) := by
    apply (List.prefix_append_right_inj _).2
    exact (List.dropLast_prefix lit).trans (List.prefix_append _ _)
  have h3 : lit <+: a2 ++ lit.dropLast := List.prefix_of_prefix_length_le hpre h4 hle
  rw [e]
  exact h3.isInfix.trans ⟨a1, [], by simp⟩

theorem replaceAllString_nomatch (r : Regex) (repl pre s : Str)
    (h : ∀ a1 a2, pre = a1 ++ a2 → a2 ≠ [] → matchAt r (a2 ++ s) = none) :
    replaceAllString r repl (pre ++ s) 0 = pre ++ replaceAllString r repl s 0 := by
  induction pre with
  | nil => rfl
  | cons c pre ih =>
    have h1 : matchAt r (c :: (pre ++ s)) = none := h [] (c :: pre) rfl (by simp)
    have h2 := ih (fun a1 a2 e ne => h (c :: a1) a2 (by simp [e]) ne)
    rw [List.cons_append, replaceAllString, h1]
    simp only [h2, List.cons_append]

/-- A content that holds two disjoint `+++` holds a first `+++` and, after it, a last one. -/
theorem exists_block (body : Str)
    (h : ∃ a b c, body = a ++ "+++".toList ++ b ++ "+++".toList ++ c) :
    ∃ pre mid post, body = pre ++ "+++".toList ++ mid ++ "+++".toList ++ post ∧
      ¬ "+++".toList <:+: pre ++ "++".toList ∧ ¬ "+++".toList <:+: "++".toList ++ post := by
  classical
  have hex : ∃ n, ∃ a b c, a.length = n ∧
      body = a ++ "+++".toList ++ b ++ "+++".toList ++ c := by
    obtain ⟨a, b, c, e⟩ := h
    exact ⟨a.length, a, b, c, rfl, e⟩
  obtain ⟨a, b, c, hn, hb⟩ := Nat.find_spec hex
  have hleft : ¬ "+++".toList <:+: a ++ "++".toList := by
    rintro ⟨x, y, hxy⟩
    have hlen : x.length < Nat.find hex := by
      have := congrArg List.length hxy
      simp only [List.length_append] at this
      have h3 : "+++".toList.length = 3 := rfl
      have h2 : "++".toList.length = 2 := rfl
      omega
    apply Nat.find_min hex hlen
    refine ⟨x, y ++ "+".toList ++ b, c, rfl, ?_⟩
    have e1 : a ++ "+++".toList = a ++ "++".toList ++ "+".toList := by simp
    rw [hb, e1, ← hxy]
    simp
  have hex2 : ∃ n, ∃ b c, c.length = n ∧
      body = a ++ "+++".toList ++ b ++ "+++".toList ++ c := ⟨c.length, b, c, rfl, hb⟩
  obtain ⟨b2, c2, hn2, hb2⟩ := Nat.find_spec hex2
  refine ⟨a, b2, c2, hb2, hleft, ?_⟩
  rintro ⟨x, y, hxy⟩
  have hlen : y.length < Nat.find hex2 := by
    have := congrArg List.length hxy
    simp only [List.length_append] at this
    have h3 : "+++".toList.length = 3 := rfl
    have h2 : "++".toList.length = 2 := rfl
    omega
  apply Nat.find_min hex2 hlen
  refine ⟨b2 ++ "+".toList ++ x, y, rfl, ?_⟩
  have e1 : "+++".toList ++ c2 = "+".toList ++ ("++".toList ++ c2) := by simp
  rw [hb2, List.append_assoc _ "+++".toList c2, e1, ← hxy]
  simp

/-- A match of the frontmatter pattern starts with `+++` and ends with a later `+++`. -/
theorem matchAt_frontmatterRe_some (t : Str) (m : Str × Option Str)
    (h : matchAt frontmatterRe t = some m) :
    ∃ u rest, t = "+++".toList ++ u ++ "+++".toList ++ rest := by
  obtain ⟨w, rest, g1, e, hm, _⟩ := run_sound frontmatterRe t none _ m h
  simp only [frontmatterRe, Regex.Matches] at hm
  obtain ⟨u1, v1, _, rfl, ⟨rfl, _⟩, u2, v2, _, rfl, _, ⟨rfl, _⟩⟩ := hm
  exact ⟨u2, rest, by rw [e]; simp⟩

/-- What the strip step does: a content without two disjoint `+++` is left as it is; in any
other content the text from the first `+++` to the last `+++` is removed. -/
theorem stripFrontmatter_spec (body : Str) :
    (stripFrontmatter body = body ∧
      ¬ ∃ a b c, body = a ++ "+++".toList ++ b ++ "+++".toList ++ c) ∨
    (∃ pre mid post, body = pre ++ "+++".toList ++ mid ++ "+++".toList ++ post ∧
      ¬ "+++".toList <:+: pre ++ "++".toList ∧ ¬ "+++".toList <:+: "++".toList ++ post ∧
      stripFrontmatter body = pre ++ post) := by
  by_cases hb : ∃ a b c, body = a ++ "+++".toList ++ b ++ "+++".toList ++ c
  · right
    obtain ⟨pre, mid, post, e, hl, hr⟩ := exists_block body hb
    refine ⟨pre, mid, post, e, hl, hr, ?_⟩
    have e1 : body = pre ++ ("+++".toList ++ mid ++ "+++".toList ++ post) := by
      rw [e]; simp
    rw [e1, stripFrontmatter, replaceAllString_nomatch]
    · have := stripFrontmatter_block mid post hr
      rw [stripFrontmatter] at this
      rw [this]
    · intro a1 a2 e2 ne
      rw [frontmatterRe]
      apply matchAt_lit_cat_none
      have := not_prefix_of_first "+++".toList pre a1 a2 (mid ++ "+++".toList ++ post)
        (by decide) hl e2 ne
      simpa using this
  · left
    refine ⟨?_, hb⟩
    rw [stripFrontmatter]
    apply replaceAllString_id
    intro t ht
    cases hm : matchAt frontmatterRe t with
    | none => rfl
    | some m =>
      exfalso
      obtain ⟨u, rest, e⟩ := matchAt_frontmatterRe_some t m hm
      obtain ⟨p, hp⟩ := ht
      exact hb ⟨p, u, rest, by rw [← hp, e]; simp⟩

/-! ### Dates -/

theorem digitChar_eq (k : Nat) (h : k < 10) : Nat.digitChar k = Char.ofNat (48 + k) := by
  interval_cases k <;> rfl

theorem toDigits_lt_10 (n : Nat) (h : n < 10) : Nat.toDigits 10 n = [Nat.digitChar n] := by
  have h0 : n / 10 = 0 := Nat.div_eq_of_lt h
  have h1 : n % 10 = n := Nat.mod_eq_of_lt h
  simp [Nat.toDigits, Nat.toDigitsCore, h0, h1]

theorem toDigits_lt_100 (n : Nat) (h1 : 10 ≤ n) (h2 : n < 100) :
    Nat.toDigits 10 n = [Nat.digitChar (n / 10), Nat.digitChar (n % 10)] := by
  obtain ⟨k, rfl⟩ : ∃ k, n = k + 1 := ⟨n - 1, by omega⟩
  have a1 : (k + 1) / 10 ≠ 0 := by omega
  have a2 : (k + 1) / 10 / 10 = 0 := by omega
  have a3 : (k + 1) / 10 % 10 = (k + 1) / 10 := by omega
  simp [Nat.toDigits, Nat.toDigitsCore, a1, a2, a3]

theorem toDigits_lt_1000 (n : Nat) (h1 : 100 ≤ n) (h2 : n < 1000) :
    Nat.toDigits 10 n =
      [Nat.digitChar (n / 100), Nat.digitChar (n / 10 % 10), Nat.digitChar (n % 10)] := by
  obtain ⟨k, rfl⟩ : ∃ k, n = k + 2 := ⟨n - 2, by omega⟩
  have a1 : (k + 2) / 10 ≠ 0 := by omega
  have a2 : (k + 2) / 10 / 10 ≠ 0 := by omega
  have a3 : (k + 2) / 10 / 10 / 10 = 0 := by omega
  have a4 : (k + 2) / 10 / 10 % 10 = (k + 2) / 100 := by omega
  simp [Nat.toDigits, Nat.toDigitsCore, a1, a2, a3, a4]

theorem toDigits_lt_10000 (n : Nat) (h1 : 1000 ≤ n) (h2 : n < 10000) :
    Nat.toDigits 10 n =
      [Nat.digitChar (n / 1000), Nat.digitChar (n / 100 % 10), Nat.digitChar (n / 10 % 10),
        Nat.digitChar (n % 10)] := by
  obtain ⟨k, rfl⟩ : ∃ k, n = k + 3 := ⟨n - 3, by omega⟩
  have a1 : (k + 3) / 10 ≠ 0 := by omega
  have a2 : (k + 3) / 10 / 10 ≠ 0 := by omega
  have a3 : (k + 3) / 10 / 10 / 10 ≠ 0 := by omega
  have a4 : (k + 3) / 10 / 10 / 10 / 10 = 0 := by omega
  have a5 : (k + 3) / 10 / 10 / 10 % 10 = (k + 3) / 1000 := by omega
  have a6 : (k + 3) / 10 / 10 % 10 = (k + 3) / 100 % 10 := by omega
  simp [Nat.toDigits, Nat.toDigitsCore, a1, a2, a3, a4, a5, a6]

/-- A number below 100, printed on two digits. -/
theorem appendInt_two (n : Nat) (h : n < 100) :
    appendInt n 2 = [Char.ofNat (48 + n / 10), Char.ofNat (48 + n % 10)] := by
  unfold appendInt
  by_cases h1 : n < 10
  · have e1 : n / 10 = 0 := by omega
    have e2 : n % 10 = n := by omega
    rw [toDigits_lt_10 n h1, e1, e2, digitChar_eq n h1]
    rfl
  · rw [toDigits_lt_100 n (by omega) h, digitChar_eq _ (by omega), digitChar_eq _ (by omega)]
    rfl

/-- A number below 10000, printed on four digits. -/
theorem appendInt_four (n : Nat) (h : n < 10000) :
    appendInt n 4 = [Char.ofNat (48 + n / 1000), Char.ofNat (48 + n / 100 % 10),
      Char.ofNat (48 + n / 10 % 10), Char.ofNat (48 + n % 10)] := by
  unfold appendInt
  by_cases h1 : n < 10
  · have e1 : n / 1000 = 0 := by omega
    have e2 : n / 100 % 10 = 0 := by omega
    have e3 : n / 10 % 10 = 0 := by omega
    have e4 : n % 10 = n := by omega
    rw [toDigits_lt_10 n h1, e1, e2, e3, e4, digitChar_eq n h1]
    rfl
  · by_cases h2 : n < 100
    · have e1 : n / 1000 = 0 := by omega
      have e2 : n / 100 % 10 = 0 := by omega
      have e3 : n / 10 % 10 = n / 10 := by omega
      rw [toDigits_lt_100 n (by omega) h2, e1, e2, e3, digitChar_eq _ (by omega),
        digitChar_eq _ (by omega)]
      rfl
    · by_cases h3 : n < 1000
      · have e1 : n / 1000 = 0 := by omega
        have e2 : n / 100 % 10 = n / 100 := by omega
        rw [toDigits_lt_1000 n (by omega) h3, e1, e2, digitChar_eq _ (by omega),
          digitChar_eq _ (by omega), digitChar_eq _ (by omega)]
        rfl
      · rw [toDigits_lt_10000 n (by omega) h, digitChar_eq _ (by omega),
          digitChar_eq _ (by omega), digitChar_eq _ (by omega), digitChar_eq _ (by omega)]
        rfl

/-- The layout `2006-01-02` on a date with a year below 10000: four digits, a hyphen, two
digits, a hyphen, two digits. -/
theorem formatDate_digits (y m d : Nat) (hy : y < 10000) (hm : m < 100) (hd : d < 100) :
    formatDate ⟨y, m, d⟩ =
      [Char.ofNat (48 + y / 1000), Char.ofNat (48 + y / 100 % 10),
        Char.ofNat (48 + y / 10 % 10), Char.ofNat (48 + y % 10), '-',
        Char.ofNat (48 + m / 10), Char.ofNat (48 + m % 10), '-',
        Char.ofNat (48 + d / 10), Char.ofNat (48 + d % 10)] := by
  simp only [formatDate, appendInt_four y hy, appendInt_two m hm, appendInt_two d hd]
  rfl

/-! ### Occurrences after `strings.Replace` -/

/-- A text that starts the output of the replacement scan, ends in a character foreign to
`new` and does not hold `new`, starts the input too, and holds no `old`. -/
theorem replaceScan_prefix_keeps (old new : Str) (s : Str) (hold : old ≠ []) :
    ∀ (x0 : Str) (g : Char), g ∉ new → ¬ new <:+: x0 ++ [g] →
      x0 ++ [g] <+: replaceScan old new s 0 →
      x0 ++ [g] <+: s ∧ ¬ old <:+: x0 ++ [g] := by
  induction s with
  | nil =>
    intro x0 g _ _ h
    simp [replaceScan] at h
  | cons c t ih =>
    intro x0 g hg hin h
    by_cases hp : old <+: c :: t
    · exfalso
      obtain ⟨rest, hr⟩ := hp
      rw [← hr, replaceScan_match _ _ _ hold] at h
      rcases List.prefix_or_prefix_of_prefix h (List.prefix_append _ _) with h2 | h2
      · exact hg (h2.subset (by simp))
      · exact hin h2.isInfix
    · rw [replaceScan_cons _ _ _ _ hp] at h
      cases x0 with
      | nil =>
        have hgc : g = c := (List.cons_prefix_cons.1 h).1
        subst hgc
        refine ⟨by simp, ?_⟩
        intro hi
        rcases List.infix_cons_iff.1 hi with h1 | h1
        · exact hp (h1.trans (by simp))
        · exact hold (List.infix_nil.1 h1)
      | cons x x0 =>
        have h' := List.cons_prefix_cons.1 h
        have hxc : x = c := h'.1
        subst hxc
        have hin' : ¬ new <:+: x0 ++ [g] :=
          fun hm => hin (hm.trans (List.suffix_cons x (x0 ++ [g])).isInfix)
        obtain ⟨i1, i2⟩ := ih x0 g hg hin' h'.2
        refine ⟨List.cons_prefix_cons.2 ⟨rfl, i1⟩, ?_⟩
        intro hi
        rcases List.infix_cons_iff.1 hi with h1 | h1
        · exact hp (h1.trans (List.cons_prefix_cons.2 ⟨rfl, i1⟩))
        · exact i2 h1

/-- A text that occurs in the output of the replacement scan occurs in the input and holds
no `old`, when it ends in a character foreign to `new`, does not hold `new` and does not
start with a non-empty ending of `new`. -/
theorem replaceScan_occurs (old new : Str) (hold : old ≠ []) (x0 : Str)
    (g : Char) (hg : g ∉ new) (hin : ¬ new <:+: x0 ++ [g])
    (hov : ∀ p ∈ new.tails, p ≠ [] → ¬ p <+: x0 ++ [g]) :
    ∀ (n : Nat) (s : Str), s.length ≤ n →
      x0 ++ [g] <:+: replaceScan old new s 0 →
      x0 ++ [g] <:+: s ∧ ¬ old <:+: x0 ++ [g] := by
  intro n
  induction n with
  | zero =>
    intro s hs h
    have : s = [] := List.length_eq_zero.1 (Nat.le_zero.1 hs)
    subst this
    simp [replaceScan] at h
  | succ n ih =>
    intro s hs h
    cases s with
    | nil => simp [replaceScan] at h
    | cons c t =>
      by_cases hp : old <+: c :: t
      · obtain ⟨rest, hr⟩ := hp
        rw [← hr, replaceScan_match _ _ _ hold] at h
        have hlen : rest.length ≤ n := by
          have h1 : (old ++ rest).length = (c :: t).length := by rw [hr]
          have h2 : 0 < old.length := List.length_pos.2 hold
          simp only [List.length_append, List.length_cons] at h1 hs
          omega
        rcases infix_append_cases h with h1 | h1 | ⟨p, q, hpne, hx, hpa, _⟩
        · exact absurd (h1.subset (by simp)) hg
        · obtain ⟨i1, i2⟩ := ih rest hlen h1
          exact ⟨i1.trans ⟨old, [], by simp [hr]⟩, i2⟩
        · exfalso
          exact hov p ((List.mem_tails _ _).2 hpa) hpne ⟨q, hx.symm⟩
      · rw [replaceScan_cons _ _ _ _ hp] at h
        rcases List.infix_cons_iff.1 h with h1 | h1
        · rw [← replaceScan_cons _ _ _ _ hp] at h1
          obtain ⟨i1, i2⟩ := replaceScan_prefix_keeps old new (c :: t) hold x0 g hg hin h1
          exact ⟨i1.isInfix, i2⟩
        · have hlen : t.length ≤ n := by
            simp only [List.length_cons] at hs
            omega
          obtain ⟨i1, i2⟩ := ih t hlen h1
          exact ⟨i1.trans (List.suffix_cons c t).isInfix, i2⟩

/-- What is left of `old` after `updateMarkdown`: nothing, when the last character of `old`
does not occur in `new`, and `old` neither holds `new` nor starts with a non-empty ending of
`new`. -/
theorem updateMarkdown_clears (content o0 new : Str) (g : Char) (hg : g ∉ new)
    (hin : ¬ new <:+: o0 ++ [g]) (hov : ∀ p ∈ new.tails, p ≠ [] → ¬ p <+: o0 ++ [g]) :
    ¬ o0 ++ [g] <:+: updateMarkdown content (o0 ++ [g]) new := by
  intro h
  have hold : o0 ++ [g] ≠ [] := by simp
  rw [updateMarkdown, stringsReplaceAll, if_neg hold] at h
  exact (replaceScan_occurs _ new hold o0 g hg hin hov _ content (Nat.le_refl _) h).2
    (List.infix_refl _)

/-- A text that occurs after `updateMarkdown` already occurred before it, under the same
conditions on the text and `new`. -/
theorem updateMarkdown_keeps (content old x0 new : Str) (g : Char) (hold : old ≠ [])
    (hg : g ∉ new) (hin : ¬ new <:+: x0 ++ [g])
    (hov : ∀ p ∈ new.tails, p ≠ [] → ¬ p <+: x0 ++ [g])
    (h : x0 ++ [g] <:+: updateMarkdown content old new) : x0 ++ [g] <:+: content := by
  rw [updateMarkdown, stringsReplaceAll, if_neg hold] at h
  exact (replaceScan_occurs _ new hold x0 g hg hin hov _ content (Nat.le_refl _) h).1

/-- A content that starts with `+++` still does after `updateMarkdown`, when `old` does not
start with `+`. -/
theorem updateMarkdown_marker (content old new : Str) (hold : old ≠ [])
    (hplus : ¬ "+".toList <+: old) (h : "+++".toList <+: content) :
    "+++".toList <+: updateMarkdown content old new := by
  obtain ⟨rest, rfl⟩ := h
  obtain ⟨o, old', rfl⟩ := List.exists_cons_of_ne_nil hold
  have ho : o ≠ '+' := fun e => hplus (by rw [e]; exact ⟨old', rfl⟩)
  have np : ∀ t, ¬ (o :: old') <+: '+' :: t :=
    fun t hp => ho (List.cons_prefix_cons.1 hp).1
  rw [updateMarkdown, stringsReplaceAll, if_neg hold]
  have e : "+++".toList ++ rest = '+' :: '+' :: '+' :: rest := rfl
  rw [e, replaceScan_cons _ _ _ _ (np _), replaceScan_cons _ _ _ _ (np _),
    replaceScan_cons _ _ _ _ (np _)]
  exact ⟨_, rfl⟩

/-! ### Paths through the loop and the rendering -/

/-- The capture group of a match of the pattern of `findLinks` holds no newline. -/
theorem matchAt_linkRe_group_line (s : Str) (m : Str × Option Str)
    (h : matchAt linkRe s = some m) : ∀ c ∈ groupText m, c ≠ '\n' := by
  obtain ⟨w, rest, g1, _, hm, hk⟩ := run_sound linkRe s none _ m h
  simp only [Option.some.injEq] at hk
  subst hk
  simp only [linkRe_eq, Regex.Matches] at hm
  obtain ⟨_, _, _, _, ⟨_, rfl⟩, _, _, _, _, ⟨_, rfl⟩, _, _, _, _, ⟨_, rfl⟩, u, v, g5, _, ⟨hg, rfl⟩,
    _, _, _, _, ⟨_, rfl⟩, _, rfl⟩ := hm
  obtain ⟨_, hg⟩ := hg
  intro c hc
  simp only [groupText, Option.getD_some] at hc
  rcases hg with ⟨a, b, _, rfl, ⟨ha, _⟩, hb, _⟩ | ⟨hj, _⟩
  · rcases List.mem_append.1 hc with h1 | h1
    · have := ha c h1
      simpa [dot] using this
    · rw [hb] at h1
      intro e
      rw [e] at h1
      exact absurd h1 (by decide)
  · rw [hj] at hc
    intro e
    rw [e] at hc
    exact absurd hc (by decide)

theorem findAllSubmatch_linkRe_line (s : Str) :
    ∀ (n : Nat) (l : Str), l ∈ findAllSubmatch linkRe s n → ∀ c ∈ l, c ≠ '\n' := by
  induction s with
  | nil => intro n l h; simp [findAllSubmatch] at h
  | cons c s ih =>
    intro n l h
    cases n with
    | succ n => exact ih n l (by simpa [findAllSubmatch] using h)
    | zero =>
      rw [findAllSubmatch] at h
      cases hm : matchAt linkRe (c :: s) with
      | none => rw [hm] at h; exact ih 0 l h
      | some m =>
        rw [hm] at h
        rcases List.mem_cons.1 h with h1 | h1
        · rw [h1]
          exact matchAt_linkRe_group_line _ m hm
        · exact ih _ l h1

/-- No path that `findLinks` returns holds a newline. -/
theorem findLinks_line (content l : Str) (h : l ∈ findLinks content) : ∀ c ∈ l, c ≠ '\n' := by
  rw [findLinks, List.mem_filter] at h
  exact findAllSubmatch_linkRe_line content 0 l h.1

theorem linkLoop_keeps {σ : Type} (env : Env σ) (x0 : Str) (links : List Str) :
    ∀ (c : Str) (s : σ), (∀ l ∈ links, l ≠ []) →
      (∀ q ∈ ingested (linkLoop env links c s).trace,
        ¬ q.2 <:+: x0 ++ ['g'] ∧ ∀ p ∈ q.2.tails, p ≠ [] → ¬ p <+: x0 ++ ['g']) →
      ¬ x0 ++ ['g'] <:+: c → ¬ x0 ++ ['g'] <:+: (linkLoop env links c s).content := by
  induction links with
  | nil => intro c s _ _ h; simpa [linkLoop] using h
  | cons l links ih =>
    intro c s hne hz hc
    have hne' : ∀ l' ∈ links, l' ≠ [] := fun l' h => hne l' (List.mem_cons_of_mem _ h)
    rcases hp : processLink env l s with ⟨e | r, s1⟩
    · rw [linkLoop_cons_error env l links c s s1 e hp] at hz ⊢
      exact ih c s1 hne' hz hc
    · rw [linkLoop_cons_ok env l links c s s1 r hp] at hz ⊢
      simp only [ingested] at hz
      obtain ⟨d, hd⟩ := processLink_ok env l s r (by rw [hp])
      have hg : 'g' ∉ r := by rw [hd]; exact reference_no_g d
      obtain ⟨h1, h2⟩ := hz (l, r) (List.mem_cons_self _ _)
      apply ih _ s1 hne' (fun p h => hz p (List.mem_cons_of_mem _ h))
      intro hi
      exact hc (updateMarkdown_keeps c l x0 r 'g' (hne l (List.mem_cons_self _ _)) hg h1 h2 hi)

theorem linkLoop_clears {σ : Type} (env : Env σ) (links : List Str) :
    ∀ (c : Str) (s : σ), (∀ l ∈ links, ∃ l0, l = l0 ++ ['g']) →
      (∀ p ∈ ingested (linkLoop env links c s).trace,
        ∀ q ∈ ingested (linkLoop env links c s).trace,
          ¬ q.2 <:+: p.1 ∧ ∀ t ∈ q.2.tails, t ≠ [] → ¬ t <+: p.1) →
      ∀ p ∈ ingested (linkLoop env links c s).trace,
        ¬ p.1 <:+: (linkLoop env links c s).content := by
  induction links with
  | nil => intro c s _ _ p h; simp [linkLoop, ingested] at h
  | cons l links ih =>
    intro c s hg hz p hp
    have hg' : ∀ l1 ∈ links, ∃ l0, l1 = l0 ++ ['g'] :=
      fun l1 h => hg l1 (List.mem_cons_of_mem _ h)
    have hne : ∀ l1 ∈ links, l1 ≠ [] := by
      intro l1 h
      obtain ⟨l0, rfl⟩ := hg' l1 h
      simp
    rcases hpl : processLink env l s with ⟨e | r, s1⟩
    · rw [linkLoop_cons_error env l links c s s1 e hpl] at hz hp ⊢
      simp only [ingested] at hz hp
      exact ih c s1 hg' hz p hp
    · rw [linkLoop_cons_ok env l links c s s1 r hpl] at hz hp ⊢
      simp only [ingested] at hz hp
      rcases List.mem_cons.1 hp with h1 | h1
      · subst h1
        obtain ⟨l0, hl0⟩ := hg l (List.mem_cons_self _ _)
        obtain ⟨d, hd⟩ := processLink_ok env l s r (by rw [hpl])
        have hng : 'g' ∉ r := by rw [hd]; exact reference_no_g d
        have hself := hz (l, r) (List.mem_cons_self _ _) (l, r) (List.mem_cons_self _ _)
        have hrest : ∀ q ∈ ingested (linkLoop env links (updateMarkdown c l r) s1).trace,
            ¬ q.2 <:+: l0 ++ ['g'] ∧ ∀ t ∈ q.2.tails, t ≠ [] → ¬ t <+: l0 ++ ['g'] := by
          intro q hq
          rw [← hl0]
          exact hz (l, r) (List.mem_cons_self _ _) q (List.mem_cons_of_mem _ hq)
        have hgone : ¬ l0 ++ ['g'] <:+: updateMarkdown c l r := by
          have h2 := hself
          simp only at h2
          rw [hl0] at h2 ⊢
          exact updateMarkdown_clears c l0 r 'g' hng h2.1 h2.2
        have := linkLoop_keeps env l0 links _ s1 hne hrest hgone
        rw [← hl0] at this
        exact this
      · exact ih _ s1 hg' (fun a ha b hb =>
          hz a (List.mem_cons_of_mem _ ha) b (List.mem_cons_of_mem _ hb)) p h1

theorem linkLoop_marker {σ : Type} (env : Env σ) (links : List Str) :
    ∀ (c : Str) (s : σ), (∀ l ∈ links, l ≠ []) →
      (∀ p ∈ ingested (linkLoop env links c s).trace, ¬ "+".toList <+: p.1) →
      "+++".toList <+: c → "+++".toList <+: (linkLoop env links c s).content := by
  induction links with
  | nil => intro c s _ _ h; simpa [linkLoop] using h
  | cons l links ih =>
    intro c s hne hz hc
    have hne' : ∀ l' ∈ links, l' ≠ [] := fun l' h => hne l' (List.mem_cons_of_mem _ h)
    rcases hp : processLink env l s with ⟨e | r, s1⟩
    · rw [linkLoop_cons_error env l links c s s1 e hp] at hz ⊢
      exact ih c s1 hne' hz hc
    · rw [linkLoop_cons_ok env l links c s s1 r hp] at hz ⊢
      simp only [ingested] at hz
      apply ih _ s1 hne' (fun p h => hz p (List.mem_cons_of_mem _ h))
      exact updateMarkdown_marker c l r (hne l (List.mem_cons_self _ _))
        (hz (l, r) (List.mem_cons_self _ _)) hc

/-- The strip of a content that starts with `+++` is an ending of the content. -/
theorem stripFrontmatter_of_marker (c : Str) (h : "+++".toList <+: c) :
    stripFrontmatter c <:+ c := by
  rcases stripFrontmatter_spec c with ⟨e, _⟩ | ⟨pre, mid, post, e, hl, _, hs⟩
  · rw [e]
  · have hpre : pre = [] := by
      by_contra hne
      apply hl
      have h1 : "+++".toList <+: pre ++ ("+++".toList ++ mid ++ "+++".toList ++ post) := by
        rw [e] at h
        simpa using h
      have h4 : pre ++ "++".toList <+: pre ++ ("+++".toList ++ mid ++ "+++".toList ++ post) :=
        (List.prefix_append_right_inj _).2 ⟨'+' :: (mid ++ "+++".toList ++ post), by simp⟩
      have hle : "+++".toList.length ≤ (pre ++ "++".toList).length := by
        have := List.length_pos.2 hne
        simp only [List.length_append]
        have h3 : "+++".toList.length = 3 := rfl
        have h2 : "++".toList.length = 2 := rfl
        omega
      exact (List.prefix_of_prefix_length_le h1 h4 hle).isInfix
    rw [hs, hpre, e, hpre]
    exact ⟨"+++".toList ++ mid ++ "+++".toList, by simp⟩

/-- A line-bound text that occurs in a section followed by other text occurs in the
section line or in the other text. -/
theorem infix_section {x : Str} (b : Prop) [Decidable b] (line rest : Str)
    (hx : x ≠ []) (hn : ∀ c ∈ x, c ≠ '\n')
    (h : x <:+: (if b then line ++ "\n\n".toList else []) ++ rest) :
    x <:+: line ∨ x <:+: rest := by
  by_cases hb : b
  · rw [if_pos hb] at h
    have e : line ++ "\n\n".toList ++ rest = line ++ ('\n' :: '\n' :: rest) := by simp
    rw [e] at h
    rcases infix_append_cases h with h1 | h1 | ⟨p, q, _, hxe, hp, hq⟩
    · exact Or.inl h1
    · rcases List.infix_cons_iff.1 h1 with h2 | h2
      · obtain ⟨a, x', rfl⟩ := List.exists_cons_of_ne_nil hx
        exact absurd (List.cons_prefix_cons.1 h2).1 (hn a (List.mem_cons_self _ _))
      · rcases List.infix_cons_iff.1 h2 with h3 | h3
        · obtain ⟨a, x', rfl⟩ := List.exists_cons_of_ne_nil hx
          exact absurd (List.cons_prefix_cons.1 h3).1 (hn a (List.mem_cons_self _ _))
        · exact Or.inr h3
    · cases q with
      | nil =>
        left
        rw [hxe, List.append_nil]
        exact hp.isInfix
      | cons a q =>
        exfalso
        have ha : a = '\n' := (List.cons_prefix_cons.1 hq).1
        exact hn a (by rw [hxe]; simp) ha
  · rw [if_neg hb] at h
    exact Or.inr (by simpa using h)

/-- The sections of the output of `replaceFrontmatter`. -/
theorem replaceFrontmatter_eq (content : Str) (fm : Frontmatter) :
    replaceFrontmatter content fm =
      (if fm.Title ≠ [] then ("# ".toList ++ fm.Title) ++ "\n\n".toList else []) ++
      ((if fm.Description ≠ [] then ("*".toList ++ fm.Description ++ "*".toList) ++ "\n\n".toList
        else []) ++
      ((if True then stripFrontmatter content ++ "\n\n".toList else []) ++
      ((if fm.Tags ≠ [] then ("*".toList ++ stringsJoin fm.Tags ",".toList ++ "*".toList) ++
        "\n\n".toList else []) ++ []))) := by
  unfold replaceFrontmatter
  by_cases h1 : fm.Title = [] <;> by_cases h2 : fm.Description = [] <;>
    by_cases h3 : fm.Tags = [] <;> simp [h1, h2, h3, List.length_pos]

/-- A line-bound text that occurs in the output of `replaceFrontmatter` occurs in the heading
line, in the description line, in the stripped content or in the tag line. -/
theorem replaceFrontmatter_occurs (content : Str) (fm : Frontmatter) (x : Str)
    (hx : x ≠ []) (hn : ∀ c ∈ x, c ≠ '\n') (h : x <:+: replaceFrontmatter content fm) :
    x <:+: "# ".toList ++ fm.Title ∨ x <:+: "*".toList ++ fm.Description ++ "*".toList ∨
    x <:+: stripFrontmatter content ∨
    x <:+: "*".toList ++ stringsJoin fm.Tags ",".toList ++ "*".toList := by
  rw [replaceFrontmatter_eq] at h
  rcases infix_section _ _ _ hx hn h with h1 | h1
  · exact Or.inl h1
  · rcases infix_section _ _ _ hx hn h1 with h2 | h2
    · exact Or.inr (Or.inl h2)
    · rcases infix_section _ _ _ hx hn h2 with h3 | h3
      · exact Or.inr (Or.inr (Or.inl h3))
      · rcases infix_section _ _ _ hx hn h3 with h4 | h4
        · exact Or.inr (Or.inr (Or.inr h4))
        · exact absurd (List.infix_nil.1 h4) hx

/-! ## The claims -/

set_option maxRecDepth 100000

/-- C1. `replaceFrontmatter body fm` is, in this order: the heading `# Title` and a blank
line when the title is not empty; the description between asterisks and a blank line when it
is not empty; the stripped body and a blank line, always; the tags joined by commas between
asterisks and a blank line when there are tags.  The stripped body is the body itself when
the body holds no two disjoint `+++`, and otherwise the body without the text from its first
`+++` to its last `+++`.  With an empty title, an empty description and no tags, the output
is the stripped body and a blank line. -/
theorem replaceFrontmatter_sections (body : Str) (fm : Frontmatter) :
    ∃ stripped : Str,
      ((stripped = body ∧ ¬ ∃ a b c, body = a ++ "+++".toList ++ b ++ "+++".toList ++ c) ∨
        (∃ pre mid post, body = pre ++ "+++".toList ++ mid ++ "+++".toList ++ post ∧
          ¬ "+++".toList <:+: pre ++ "++".toList ∧ ¬ "+++".toList <:+: "++".toList ++ post ∧
          stripped = pre ++ post)) ∧
      replaceFrontmatter body fm =
        (if fm.Title ≠ [] then "# ".toList ++ fm.Title ++ "\n\n".toList else []) ++
        (if fm.Description ≠ [] then "*".toList ++ fm.Description ++ "*\n\n".toList else []) ++
        (stripped ++ "\n\n".toList) ++
        (if fm.Tags ≠ [] then "*".toList ++ ",".toList.intercalate fm.Tags ++ "*\n\n".toList
          else []) ∧
      ∀ date : Date, replaceFrontmatter body ⟨[], [], date, []⟩ = stripped ++ "\n\n".toList := by
  refine ⟨stripFrontmatter body, ?_, ?_, ?_⟩
  · rcases stripFrontmatter_spec body with ⟨e, hn⟩ | ⟨pre, mid, post, e, hl, hr, hs⟩
    · exact Or.inl ⟨e, hn⟩
    · exact Or.inr ⟨pre, mid, post, e, hl, hr, hs⟩
  · unfold replaceFrontmatter
    rw [stringsJoin_eq_intercalate]
    by_cases h1 : fm.Title = [] <;> by_cases h2 : fm.Description = [] <;>
      by_cases h3 : fm.Tags = [] <;> simp [h1, h2, h3, List.length_pos]
  · intro date
    simp [replaceFrontmatter]

/-- C2. On the document `Body text ![x](photo.jpeg)`, whose only image reference has a path
that ends in `.jpeg` and holds no `http`, `findLinks` returns no link at all: in the pattern
the alternation `.*?jpg|jpeg` is the whole group, so `jpeg` is only tried right after the
opening parenthesis. -/
theorem findLinks_jpeg_reference_dropped :
    findLinks "Body text ![x](photo.jpeg)".toList = [] ∧
    findLinks "Body text ![x](photo.jpg)".toList = ["photo.jpg".toList] := by
  decide

/-- C3, as stated, fails: the path `a.jpg?u=http` contains `http`, and `findLinks` returns
the part `a.jpg` of it that the group captured. -/
theorem findLinks_http_after_jpg :
    "http".toList <:+: "a.jpg?u=http".toList ∧
    (∀ c ∈ "x".toList ++ "a.jpg?u=http".toList, c ∉ "[]()\n".toList) ∧
    findLinks ("![".toList ++ "x".toList ++ "](".toList ++ "a.jpg?u=http".toList ++ ")".toList)
      = ["a.jpg".toList] := by
  decide

/-- C3, amended. For every alt text and path without bracket, parenthesis or newline, such
that the path contains `http`: `findLinks` returns nothing on `![alt](path)` when `http`
occurs in the part of the path up to its first `jpg`, and when the path neither contains
`jpg` nor starts with `jpeg`. -/
theorem findLinks_http_excluded (alt path : Str)
    (halt : ∀ c ∈ alt, c ∉ "[]()\n".toList) (hpath : ∀ c ∈ path, c ∉ "[]()\n".toList)
    (_hhttp : "http".toList <:+: path)
    (hcap : (∃ p1 p2, path = p1 ++ "jpg".toList ++ p2 ∧ ¬ "jpg".toList <:+: p1 ++ "jp".toList ∧
        "http".toList <:+: p1 ++ "jpg".toList) ∨
      (¬ "jpg".toList <:+: path ∧ ¬ "jpeg".toList <+: path)) :
    findLinks ("![".toList ++ alt ++ "](".toList ++ path ++ ")".toList) = [] := by
  have ha : ∀ c ∈ alt, c ≠ '[' ∧ c ≠ ']' ∧ c ≠ '(' ∧ c ≠ ')' ∧ c ≠ '\n' := by
    intro c hc
    have := halt c hc
    simpa using this
  have hp : ∀ c ∈ path, c ≠ '[' ∧ c ≠ ']' ∧ c ≠ '(' ∧ c ≠ ')' ∧ c ≠ '\n' := by
    intro c hc
    have := hpath c hc
    simpa using this
  rcases hcap with ⟨p1, p2, rfl, hfirst, hh⟩ | ⟨hjpg, hjpeg⟩
  · rw [findLinks_image_jpg alt p1 p2 (fun c hc => ⟨(ha c hc).2.1, (ha c hc).2.2.2.2⟩)
      (fun c hc => (hp c (by simp [hc])).2.2.2.2)
      (fun c hc => ⟨(hp c (by simp [hc])).2.2.2.1, (hp c (by simp [hc])).2.2.2.2⟩) hfirst,
      if_pos hh]
  · exact findLinks_image_other alt path (fun c hc => ⟨(ha c hc).1, (ha c hc).2.1⟩)
      (fun c hc => ⟨(hp c hc).1, (hp c hc).2.1⟩) hjpg hjpeg

/-- C3, amended, at the reference `![x](http://x/a.jpg)`. -/
theorem findLinks_http_excluded_witness :
    "http".toList <:+: "http://x/a.jpg".toList ∧
    findLinks ("![".toList ++ "x".toList ++ "](".toList ++ "http://x/a.jpg".toList ++ ")".toList)
      = [] :=
  ⟨by decide, findLinks_http_excluded "x".toList "http://x/a.jpg".toList (by decide) (by decide)
    (by decide) (Or.inl ⟨"http://x/a.".toList, [], by decide, by decide, by decide⟩)⟩

/-- C4, as stated, fails: the pattern is greedy, so the block that is removed ends at the last
`+++` of the content.  With the metadata `a`, the body `b+++c` is cut down to `c`, and in
front of the body `+x` the block takes the first `+` of the body. -/
theorem stripFrontmatter_greedy :
    ¬ "+++".toList <:+: "a".toList ∧
    stripFrontmatter ("+++".toList ++ "a".toList ++ "+++".toList ++ "b+++c".toList) = "c".toList ∧
    stripFrontmatter ("+++".toList ++ "a".toList ++ "+++".toList ++ "+x".toList) = "x".toList := by
  decide

/-- C4, amended. For every metadata text (with or without `+++` in it) and every body that
neither contains `+++` nor starts with `+`, the strip step of `replaceFrontmatter` applied to
`+++`, the metadata, `+++` and the body yields the body. -/
theorem stripFrontmatter_removes_block (m body : Str) (h1 : ¬ "+++".toList <:+: body)
    (h2 : ¬ "+".toList <+: body) :
    stripFrontmatter ("+++".toList ++ m ++ "+++".toList ++ body) = body :=
  stripFrontmatter_block m body (not_infix_plus body h1 h2)

/-- C4, amended, at the document of the end-to-end scenario. -/
theorem stripFrontmatter_removes_block_witness :
    ¬ "+++".toList <:+: "\nBody text ![x](photo.jpg)".toList ∧
    ¬ "+".toList <+: "\nBody text ![x](photo.jpg)".toList ∧
    stripFrontmatter ("+++".toList ++ tripMeta ++ "+++".toList ++
      "\nBody text ![x](photo.jpg)".toList) = "\nBody text ![x](photo.jpg)".toList :=
  ⟨by decide, by decide,
    stripFrontmatter_removes_block tripMeta "\nBody text ![x](photo.jpg)".toList
      (by decide) (by decide)⟩

/-- C5. On a content without `+++` block, here `Body text` and the empty content,
`processFrontmatter` panics (the index `[1]` is applied to the `nil` that
`FindStringSubmatch` returns) and so does `importMarkdown`, before any call of `Save`: no
error is returned. -/
theorem importMarkdown_without_block_panics {σ : Type} (env : Env σ) (domain filename : Str)
    (s : σ) :
    processFrontmatter env "Body text".toList = .panic ∧
    processFrontmatter env [] = .panic ∧
    (importMarkdown env domain filename "Body text".toList s).result = .panic ∧
    (importMarkdown env domain filename "Body text".toList s).trace = [] := by
  have h1 : processFrontmatter env "Body text".toList = .panic :=
    processFrontmatter_no_marker env _ (by decide)
  have h2 : processFrontmatter env [] = .panic :=
    processFrontmatter_no_marker env _ (by decide)
  have h3 : TrimSpace "Body text".toList = "Body text".toList := by decide
  refine ⟨h1, h2, ?_, ?_⟩
  · unfold importMarkdown importData
    rw [h3]
    by_cases hi : "Body text".toList = env.introText
    · simp only [if_pos hi, h2]
    · simp only [if_neg hi, h1]
  · unfold importMarkdown importData
    rw [h3]
    by_cases hi : "Body text".toList = env.introText
    · simp only [if_pos hi, h2]
    · simp only [if_neg hi, h1]

/-- C6. When the frontmatter of the content decodes to `fm`, `importMarkdown` calls `Save`,
and every document it passes to `Save` has the slug `fm.Date` formatted with the layout
`2006-01-02`, a hyphen and the file name; the data `*slug*`, a blank line and the markdown
that `processMarkdown` renders from the trimmed content; and the domain argument as its
domain.  For a year below 10000 the formatted date is the four digits of the year, a hyphen,
the two digits of the month, a hyphen and the two digits of the day, each padded with
zeros.  For the file name `trip.md` and the date 2020-05-01 the slug is
`2020-05-01-trip.md`. -/
theorem importMarkdown_saved_document {σ : Type} (env : Env σ) (domain filename content : Str)
    (s : σ) (fm : Frontmatter)
    (h : processFrontmatter env (importData env content) = .ok fm) :
    ∃ rendered, (processMarkdown env (TrimSpace content) s).result = .ok rendered ∧
      savedFiles (importMarkdown env domain filename content s).trace ≠ [] ∧
      (∀ f ∈ savedFiles (importMarkdown env domain filename content s).trace,
        f.Slug = formatDate fm.Date ++ "-".toList ++ filename ∧
        (fm.Date.year < 10000 → fm.Date.month < 100 → fm.Date.day < 100 →
          f.Slug =
            [Char.ofNat (48 + fm.Date.year / 1000), Char.ofNat (48 + fm.Date.year / 100 % 10),
              Char.ofNat (48 + fm.Date.year / 10 % 10), Char.ofNat (48 + fm.Date.year % 10),
              '-', Char.ofNat (48 + fm.Date.month / 10), Char.ofNat (48 + fm.Date.month % 10),
              '-', Char.ofNat (48 + fm.Date.day / 10), Char.ofNat (48 + fm.Date.day % 10),
              '-'] ++ filename) ∧
        f.Data = "*".toList ++ f.Slug ++ "*\n\n".toList ++ rendered ∧
        f.Domain = domain) ∧
      formatDate ⟨2020, 5, 1⟩ ++ "-".toList ++ "trip.md".toList = "2020-05-01-trip.md".toList := by
  have hd := importData_of_ok env content fm h
  have hq := linkLoop_trace_quiet env (findLinks (importData env content))
    (importData env content) s
  have hfmt : fm.Date.year < 10000 → fm.Date.month < 100 → fm.Date.day < 100 →
      formatDate fm.Date ++ "-".toList ++ filename =
        [Char.ofNat (48 + fm.Date.year / 1000), Char.ofNat (48 + fm.Date.year / 100 % 10),
          Char.ofNat (48 + fm.Date.year / 10 % 10), Char.ofNat (48 + fm.Date.year % 10),
          '-', Char.ofNat (48 + fm.Date.month / 10), Char.ofNat (48 + fm.Date.month % 10),
          '-', Char.ofNat (48 + fm.Date.day / 10), Char.ofNat (48 + fm.Date.day % 10),
          '-'] ++ filename := by
    intro hy hm hdd
    have := formatDate_digits fm.Date.year fm.Date.month fm.Date.day hy hm hdd
    rw [show (Date.mk fm.Date.year fm.Date.month fm.Date.day) = fm.Date from rfl] at this
    rw [this]
    simp
  rw [← hd]
  refine ⟨_, by rw [processMarkdown_of_ok env _ s fm h], ?_, ?_, by decide⟩
  · simp only [importMarkdown, h, processMarkdown_of_ok env _ s fm h]
    split
    · simp [savedFiles_append, savedFiles]
    · split <;> simp [savedFiles_append, savedFiles]
  · intro f hf
    have key : f.Slug = formatDate fm.Date ++ "-".toList ++ filename ∧
        f.Data = "*".toList ++ f.Slug ++ "*\n\n".toList ++
          replaceFrontmatter (linkLoop env (findLinks (importData env content))
            (importData env content) s).content fm ∧
        f.Domain = domain := by
      revert hf
      simp only [importMarkdown, h, processMarkdown_of_ok env _ s fm h]
      split
      · simp only [savedFiles_append, savedFiles, hq, List.nil_append, List.mem_singleton]
        rintro rfl
        exact ⟨rfl, rfl, rfl⟩
      · split
        · simp only [savedFiles_append, savedFiles, hq, List.nil_append, List.mem_cons,
            List.mem_singleton, List.not_mem_nil, or_false, or_self]
          rintro rfl
          exact ⟨rfl, rfl, rfl⟩
        · simp only [savedFiles_append, savedFiles, hq, List.nil_append, List.mem_cons,
            List.mem_singleton, List.not_mem_nil, or_false, or_self]
          rintro rfl
          exact ⟨rfl, rfl, rfl⟩
    refine ⟨key.1, ?_, ?_, key.2.2⟩
    · intro hy hm hdd
      rw [key.1]
      exact hfmt hy hm hdd
    · exact key.2.1

/-- C6 at the document of the end-to-end scenario. -/
theorem importMarkdown_saved_document_witness :
    processFrontmatter (demoEnv true) (importData (demoEnv true) tripContent) =
      .ok ⟨"Trip".toList, [], ⟨2020, 5, 1⟩, ["a".toList, "b".toList]⟩ ∧
    ∃ rendered, (processMarkdown (demoEnv true) (TrimSpace tripContent) 0).result = .ok rendered ∧
      savedFiles (importMarkdown (demoEnv true) "travel".toList "trip.md".toList
        tripContent 0).trace ≠ [] ∧
      (∀ f ∈ savedFiles (importMarkdown (demoEnv true) "travel".toList "trip.md".toList
          tripContent 0).trace,
        f.Slug = "2020-05-01-trip.md".toList ∧
        f.Data = "*".toList ++ f.Slug ++ "*\n\n".toList ++ rendered ∧
        f.Domain = "travel".toList) := by
  obtain ⟨rendered, h1, h2, h3, _⟩ := importMarkdown_saved_document (demoEnv true)
    "travel".toList "trip.md".toList tripContent 0
    ⟨"Trip".toList, [], ⟨2020, 5, 1⟩, ["a".toList, "b".toList]⟩ (by decide)
  refine ⟨by decide, rendered, h1, h2, ?_⟩
  intro f hf
  obtain ⟨_, a2, a3, a4⟩ := h3 f hf
  refine ⟨?_, a3, a4⟩
  rw [a2 (by decide) (by decide) (by decide)]
  decide

/-- C7, as stated, fails: with the domain argument `notes` and a first `Save` that fails,
`importMarkdown` calls `SetDomain` with the domain `travel`, which is not the domain `notes`
of the document that it saves before and after. -/
theorem importMarkdown_retry_sets_travel :
    saveResults (importMarkdown (demoEnv true) "notes".toList "trip.md".toList
      tripContent 1).trace = [some ⟨"domain does not exist"⟩, none] ∧
    setDomainCalls (importMarkdown (demoEnv true) "notes".toList "trip.md".toList
      tripContent 1).trace = [("travel".toList, "123".toList)] ∧
    setDomainCalls (importMarkdown (demoEnv true) "notes".toList "trip.md".toList
      tripContent 1).trace ≠ [("notes".toList, "123".toList)] ∧
    (savedFiles (importMarkdown (demoEnv true) "notes".toList "trip.md".toList
      tripContent 1).trace).map File.Domain = ["notes".toList, "notes".toList] := by
  decide

/-- C7, amended. For every domain argument, when the frontmatter decodes and the first `Save`
fails with `e1`, `importMarkdown` ends with these three calls: `Save` of the document,
`SetDomain` with the fixed domain `travel` and the fixed password `123`, and `Save` of the
same document; `SetDomain` is called exactly once, no other `Save` is made, and the domain
of the document is the domain argument. -/
theorem importMarkdown_retry_provisions {σ : Type} (env : Env σ)
    (domain filename content : Str) (s : σ) (fm : Frontmatter) (e1 : Error)
    (h : processFrontmatter env (importData env content) = .ok fm)
    (hfail : (saveResults (importMarkdown env domain filename content s).trace)[0]? =
      some (some e1)) :
    setDomainCalls (importMarkdown env domain filename content s).trace =
      [("travel".toList, "123".toList)] ∧
    ∃ (f : File) (t : List Event) (d r2 : Option Error),
      (importMarkdown env domain filename content s).trace =
        t ++ [Event.save f (some e1), Event.setDomain "travel".toList "123".toList d,
          Event.save f r2] ∧
      savedFiles t = [] ∧ setDomainCalls t = [] ∧ f.Domain = domain := by
  have hq := linkLoop_trace_quiet env (findLinks (importData env content))
    (importData env content) s
  revert hfail
  simp only [importMarkdown, h, processMarkdown_of_ok env _ s fm h]
  split
  · intro hfail
    simp [saveResults_append, hq, saveResults] at hfail
  · split
    · intro hfail
      simp only [saveResults_append, hq, saveResults, List.nil_append, List.getElem?_cons_zero,
        Option.some.injEq] at hfail
      subst hfail
      exact ⟨by simp [setDomainCalls_append, hq, setDomainCalls], _, _, _, _, rfl, hq.2.1,
        hq.2.2, rfl⟩
    · intro hfail
      simp only [saveResults_append, hq, saveResults, List.nil_append, List.getElem?_cons_zero,
        Option.some.injEq] at hfail
      subst hfail
      exact ⟨by simp [setDomainCalls_append, hq, setDomainCalls], _, _, _, _, rfl, hq.2.1,
        hq.2.2, rfl⟩

/-- C7, amended, at the persistence-retry scenario, with the domain `travel` that the program
passes. -/
theorem importMarkdown_retry_provisions_witness :
    (saveResults (importMarkdown (demoEnv true) "travel".toList "trip.md".toList
      tripContent 1).trace)[0]? = some (some ⟨"domain does not exist"⟩) ∧
    setDomainCalls (importMarkdown (demoEnv true) "travel".toList "trip.md".toList
      tripContent 1).trace = [("travel".toList, "123".toList)] :=
  ⟨by decide, (importMarkdown_retry_provisions (demoEnv true) "travel".toList "trip.md".toList
    tripContent 1 ⟨"Trip".toList, [], ⟨2020, 5, 1⟩, ["a".toList, "b".toList]⟩
    ⟨"domain does not exist"⟩ (by decide) (by decide)).1⟩

/-- C8. When the frontmatter decodes, `importMarkdown` calls `Save` once or twice and
`SetDomain` at most once, and not at all when the first `Save` succeeds; it returns no error
exactly when the first or the second `Save` succeeds; when both fail it returns the error of
the second; when the first fails and the second succeeds it returns no error. -/
theorem importMarkdown_save_retry {σ : Type} (env : Env σ) (domain filename content : Str)
    (s : σ) (fm : Frontmatter)
    (h : processFrontmatter env (importData env content) = .ok fm) :
    1 ≤ (saveResults (importMarkdown env domain filename content s).trace).length ∧
    (saveResults (importMarkdown env domain filename content s).trace).length ≤ 2 ∧
    (setDomainCalls (importMarkdown env domain filename content s).trace).length ≤ 1 ∧
    ((saveResults (importMarkdown env domain filename content s).trace)[0]? = some none →
      setDomainCalls (importMarkdown env domain filename content s).trace = []) ∧
    ((importMarkdown env domain filename content s).result = .ok () ↔
      ((saveResults (importMarkdown env domain filename content s).trace)[0]? = some none ∨
       (saveResults (importMarkdown env domain filename content s).trace)[1]? = some none)) ∧
    (∀ e1 e2, saveResults (importMarkdown env domain filename content s).trace =
        [some e1, some e2] → (importMarkdown env domain filename content s).result = .err e2) ∧
    (∀ e1, saveResults (importMarkdown env domain filename content s).trace = [some e1, none] →
      (importMarkdown env domain filename content s).result = .ok ()) := by
  have hq := linkLoop_trace_quiet env (findLinks (importData env content))
    (importData env content) s
  simp only [importMarkdown, h, processMarkdown_of_ok env _ s fm h]
  split
  · simp [saveResults_append, setDomainCalls_append, hq, saveResults, setDomainCalls]
  · split
    · simp [saveResults_append, setDomainCalls_append, hq, saveResults, setDomainCalls]
    · simp [saveResults_append, setDomainCalls_append, hq, saveResults, setDomainCalls]

/-- C8 at the persistence-retry scenario: `Save` fails once and then succeeds. -/
theorem importMarkdown_save_retry_witness :
    saveResults (importMarkdown (demoEnv true) "travel".toList "trip.md".toList
      tripContent 1).trace = [some ⟨"domain does not exist"⟩, none] ∧
    (importMarkdown (demoEnv true) "travel".toList "trip.md".toList tripContent 1).result =
      .ok () :=
  ⟨by decide, (importMarkdown_save_retry (demoEnv true) "travel".toList "trip.md".toList
    tripContent 1 ⟨"Trip".toList, [], ⟨2020, 5, 1⟩, ["a".toList, "b".toList]⟩
    (by decide)).2.2.2.2.2.2 ⟨"domain does not exist"⟩ (by decide)⟩

/-- C9, as stated, fails, in four ways.  In `splitContent` the `+++` block stands between
`a.j` and `pg`: the link `a.jpg` is ingested and rewritten, and the strip of the block then
joins the two pieces into a new `a.jpg` in the rendered body.  In `digitContent` the path
`0.jpg` of the link is followed by `.jpg`, and the reference that replaces it ends in the
digit `0`: the rewritten text holds `0.jpg` again.  In `titleContent` the title is the path
`photo.jpg`: the frontmatter is decoded before the rewrite, and its heading line holds the
path.  In `plusContent` the path starts with `+` and occurs at the third character of the
content: after the rewrite the content does not start with `+++` any more, and the strip
joins the two pieces of a new occurrence of the path. -/
theorem processMarkdown_rendered_keeps_path :
    processFrontmatter (demoEnv true) splitContent = .ok zeroFrontmatter ∧
    findLinks splitContent = ["a.jpg".toList] ∧
    ingested (processMarkdown (demoEnv true) splitContent 0).trace =
      [("a.jpg".toList, demoRef)] ∧
    (processMarkdown (demoEnv true) splitContent 0).result =
      .ok ("![x](".toList ++ demoRef ++ ") a.jpg\n\n".toList) ∧
    "a.jpg".toList <:+: "![x](".toList ++ demoRef ++ ") a.jpg\n\n".toList ∧
    processFrontmatter (demoEnv true) digitContent = .ok zeroFrontmatter ∧
    findLinks digitContent = ["0.jpg".toList] ∧
    ingested (processMarkdown (demoEnv true) digitContent 0).trace =
      [("0.jpg".toList, demoRef)] ∧
    (processMarkdown (demoEnv true) digitContent 0).result =
      .ok ("\n![x](".toList ++ demoRef ++ ".jpg)\n\n".toList) ∧
    "0.jpg".toList <:+: "\n![x](".toList ++ demoRef ++ ".jpg)\n\n".toList ∧
    processFrontmatter (demoEnv true) titleContent =
      .ok ⟨"photo.jpg".toList, [], ⟨1, 1, 1⟩, []⟩ ∧
    findLinks titleContent = ["photo.jpg".toList] ∧
    ingested (processMarkdown (demoEnv true) titleContent 0).trace =
      [("photo.jpg".toList, demoRef)] ∧
    (processMarkdown (demoEnv true) titleContent 0).result =
      .ok ("# photo.jpg\n\n\n![x](".toList ++ demoRef ++ ")\n\n".toList) ∧
    "photo.jpg".toList <:+: "# photo.jpg\n\n\n![x](".toList ++ demoRef ++ ")\n\n".toList ∧
    processFrontmatter (demoEnv true) plusContent = .ok zeroFrontmatter ∧
    "+++".toList <+: plusContent ∧
    findLinks plusContent = ["+a=\"jpg".toList] ∧
    ingested (processMarkdown (demoEnv true) plusContent 0).trace =
      [("+a=\"jpg".toList, demoRef)] ∧
    (processMarkdown (demoEnv true) plusContent 0).result =
      .ok ("++".toList ++ demoRef ++ "\"\n#+a=\"jpg ![x](".toList ++ demoRef ++
        ")\n\n".toList) ∧
    "+a=\"jpg".toList <:+: "++".toList ++ demoRef ++ "\"\n#+a=\"jpg ![x](".toList ++ demoRef ++
      ")\n\n".toList := by
  decide

/-- C9, amended. For every content that starts with `+++` and whose frontmatter decodes to
`fm`, and every outcome of the ingestion, the rendered body that `processMarkdown` returns
holds no occurrence of the path of a link that `findLinks` returned and that was ingested,
provided that no ingested path starts with `+`; that no ingested path occurs in the heading
line `# Title`, the description line or the tag line of `fm`; and that no ingested path
holds the reference of an ingested link or starts with a non-empty ending of one. Every
ingested link is a link that `findLinks` returned, and its reference is `/uploads/sha256-`
followed by hexadecimal digits. -/
theorem processMarkdown_rewrite_complete {σ : Type} (env : Env σ) (content : Str) (s : σ)
    (fm : Frontmatter) (hfm : processFrontmatter env content = .ok fm)
    (hstart : "+++".toList <+: content)
    (hplus : ∀ l r, (l, r) ∈ ingested (processMarkdown env content s).trace →
      ¬ "+".toList <+: l)
    (hmeta : ∀ l r, (l, r) ∈ ingested (processMarkdown env content s).trace →
      ¬ l <:+: "# ".toList ++ fm.Title ∧
      ¬ l <:+: "*".toList ++ fm.Description ++ "*".toList ∧
      ¬ l <:+: "*".toList ++ ",".toList.intercalate fm.Tags ++ "*".toList)
    (hover : ∀ l r, (l, r) ∈ ingested (processMarkdown env content s).trace →
      ∀ l1 r1, (l1, r1) ∈ ingested (processMarkdown env content s).trace →
        ¬ r1 <:+: l ∧ ∀ t ∈ r1.tails, t ≠ [] → ¬ t <+: l) :
    ∃ rendered, (processMarkdown env content s).result = .ok rendered ∧
      ∀ l r, (l, r) ∈ ingested (processMarkdown env content s).trace →
        l ∈ findLinks content ∧
        (∃ d, r = "/uploads/sha256-".toList ++ hexEncode d) ∧
        ¬ l <:+: rendered := by
  rw [processMarkdown_of_ok env content s fm hfm] at hplus hmeta hover ⊢
  refine ⟨_, rfl, ?_⟩
  intro l r hm
  obtain ⟨h1, h2⟩ := linkLoop_ingested env (findLinks content) content s (l, r) hm
  refine ⟨h1, h2, ?_⟩
  intro hocc
  have hne : ∀ l1 ∈ findLinks content, l1 ≠ [] := by
    intro l1 hl1
    obtain ⟨l0, rfl⟩ := findLinks_mem_last content l1 hl1
    simp
  obtain ⟨m1, m2, m3⟩ := hmeta l r hm
  rcases replaceFrontmatter_occurs _ fm l (hne l h1) (findLinks_line content l h1) hocc with
    a | a | a | a
  · exact m1 a
  · exact m2 a
  · have hmark := linkLoop_marker env (findLinks content) content s hne
      (fun p hp => hplus p.1 p.2 hp) hstart
    have hin := a.trans (stripFrontmatter_of_marker _ hmark).isInfix
    exact linkLoop_clears env (findLinks content) content s
      (fun l1 h => findLinks_mem_last content l1 h)
      (fun p hp q hq => hover p.1 p.2 hp q.1 q.2 hq) (l, r) hm hin
  · rw [stringsJoin_eq_intercalate] at a
    exact m3 a

/-- C9, amended, at the document of the end-to-end scenario and at a document whose path
holds the last digit of its reference, both with a readable image. -/
theorem processMarkdown_rewrite_complete_witness :
    (ingested (processMarkdown (demoEnv true) tripContent 0).trace =
      [("photo.jpg".toList, demoRef)] ∧
     ∃ rendered, (processMarkdown (demoEnv true) tripContent 0).result = .ok rendered ∧
       ¬ "photo.jpg".toList <:+: rendered) ∧
    (ingested (processMarkdown (demoEnv true) imgContent 0).trace =
      [("img0.jpg".toList, demoRef)] ∧
     ∃ rendered, (processMarkdown (demoEnv true) imgContent 0).result = .ok rendered ∧
       ¬ "img0.jpg".toList <:+: rendered) := by
  have e1 : ingested (processMarkdown (demoEnv true) tripContent 0).trace =
      [("photo.jpg".toList, demoRef)] := by decide
  have e2 : ingested (processMarkdown (demoEnv true) imgContent 0).trace =
      [("img0.jpg".toList, demoRef)] := by decide
  constructor
  · obtain ⟨rendered, hr, hall⟩ := processMarkdown_rewrite_complete (demoEnv true) tripContent 0
      ⟨"Trip".toList, [], ⟨2020, 5, 1⟩, ["a".toList, "b".toList]⟩ (by decide) (by decide)
      (by
        intro l r h
        rw [e1] at h
        obtain ⟨rfl, rfl⟩ := Prod.mk.inj (List.mem_singleton.1 h)
        decide)
      (by
        intro l r h
        rw [e1] at h
        obtain ⟨rfl, rfl⟩ := Prod.mk.inj (List.mem_singleton.1 h)
        decide)
      (by
        intro l r h l1 r1 h1
        rw [e1] at h h1
        obtain ⟨rfl, rfl⟩ := Prod.mk.inj (List.mem_singleton.1 h)
        obtain ⟨rfl, rfl⟩ := Prod.mk.inj (List.mem_singleton.1 h1)
        decide)
    exact ⟨e1, rendered, hr,
      (hall "photo.jpg".toList demoRef (by rw [e1]; exact List.mem_singleton_self _)).2.2⟩
  · obtain ⟨rendered, hr, hall⟩ := processMarkdown_rewrite_complete (demoEnv true) imgContent 0
      zeroFrontmatter (by decide) (by decide)
      (by
        intro l r h
        rw [e2] at h
        obtain ⟨rfl, rfl⟩ := Prod.mk.inj (List.mem_singleton.1 h)
        decide)
      (by
        intro l r h
        rw [e2] at h
        obtain ⟨rfl, rfl⟩ := Prod.mk.inj (List.mem_singleton.1 h)
        decide)
      (by
        intro l r h l1 r1 h1
        rw [e2] at h h1
        obtain ⟨rfl, rfl⟩ := Prod.mk.inj (List.mem_singleton.1 h)
        obtain ⟨rfl, rfl⟩ := Prod.mk.inj (List.mem_singleton.1 h1)
        decide)
    exact ⟨e2, rendered, hr,
      (hall "img0.jpg".toList demoRef (by rw [e2]; exact List.mem_singleton_self _)).2.2⟩

/-- C10. When the frontmatter of the content decodes to `fm` and no link that `findLinks`
returned is ingested, `processMarkdown` returns `replaceFrontmatter` of the unmodified
content and of `fm`; and `importMarkdown`, on a raw content that is trimmed to this content,
returns no error when its first `Save` succeeds, having saved `*slug*`, a blank line and that
markdown. -/
theorem processMarkdown_failed_ingests {σ : Type} (env : Env σ) (content : Str) (s : σ)
    (fm : Frontmatter) (hfm : processFrontmatter env content = .ok fm)
    (hfail : ingested (processMarkdown env content s).trace = []) :
    (processMarkdown env content s).result = .ok (replaceFrontmatter content fm) ∧
    ∀ domain filename raw, importData env raw = content →
      (saveResults (importMarkdown env domain filename raw s).trace)[0]? = some none →
      (importMarkdown env domain filename raw s).result = .ok () ∧
      (savedFiles (importMarkdown env domain filename raw s).trace).map File.Data =
        ["*".toList ++ (formatDate fm.Date ++ "-".toList ++ filename) ++ "*\n\n".toList ++
          replaceFrontmatter content fm] := by
  rw [processMarkdown_of_ok env content s fm hfm] at hfail ⊢
  have hc := linkLoop_content_of_none env (findLinks content) content s hfail
  have hq := linkLoop_trace_quiet env (findLinks content) content s
  refine ⟨by rw [hc], ?_⟩
  intro domain filename raw hraw
  simp only [importMarkdown, hraw, hfm, processMarkdown_of_ok env content s fm hfm]
  split
  · simp [saveResults_append, savedFiles_append, hq, saveResults, savedFiles, hc]
  · split <;> simp [saveResults_append, savedFiles_append, hq, saveResults, savedFiles, hc]

/-- C10 at the failure scenario: the document of the end-to-end scenario, with an unreadable
`photo.jpg`.  The reference `![x](photo.jpg)` is retained. -/
theorem processMarkdown_failed_ingests_witness :
    processFrontmatter (demoEnv false) tripContent =
      .ok ⟨"Trip".toList, [], ⟨2020, 5, 1⟩, ["a".toList, "b".toList]⟩ ∧
    findLinks tripContent = ["photo.jpg".toList] ∧
    ingested (processMarkdown (demoEnv false) tripContent 0).trace = [] ∧
    (processMarkdown (demoEnv false) tripContent 0).result =
      .ok "# Trip\n\n\nBody text ![x](photo.jpg)\n\n*a,b*\n\n".toList ∧
    (importMarkdown (demoEnv false) "travel".toList "trip.md".toList tripContent 0).result =
      .ok () := by
  have h := processMarkdown_failed_ingests (demoEnv false) tripContent 0
    ⟨"Trip".toList, [], ⟨2020, 5, 1⟩, ["a".toList, "b".toList]⟩ (by decide) (by decide)
  refine ⟨by decide, by decide, by decide, ?_, ?_⟩
  · rw [h.1]
    decide
  · exact (h.2 "travel".toList "trip.md".toList tripContent (by decide) (by decide)).1

end Rwtxt
